import Mathlib

set_option maxRecDepth 4000

/-!
Shallow embedding of the Quine-McCluskey minimization engine of the
karnaugh-map-app repository (TypeScript sources under
`libs/mintplayer/quine-mccluskey`), together with theorems settling the
frozen claims about it.

Modelling conventions:
* JavaScript numbers holding term indices are modelled as `Int`
  (exact-integer range; the per-bit extraction `(m >> i) & 1` is floor
  division followed by a nonnegative remainder, which matches the
  arithmetic shift on every value within the native 32-bit range).
* A JS `Map`/`Set` is modelled as an insertion-ordered duplicate-free
  list (`dedupFirst`), matching the iteration-order guarantees used by
  the code.
* `Array.prototype.sort` with the numeric comparator is modelled by
  `List.insertionSort (· ≤ ·)`, a stable ascending sort, matching the
  (ES2019) stable-sort guarantee.
* Mutation of a record/row/column object in place is modelled by
  returning an updated copy; object identity inside a table is modelled
  by the position (index) of the element in the containing list.
-/

/-- `data/enums/logic-state.enum.ts`: tri-state value of one bit position. -/
inductive ELogicState where
  | False
  | True
  | DontCare
deriving DecidableEq

/-- First-occurrence de-duplication with an accumulator of already seen
elements; models the insertion-order semantics of a JS `Set`. -/
def dedupFirstAux {α : Type} [DecidableEq α] (seen : List α) : List α → List α
  | [] => []
  | x :: xs => if x ∈ seen then dedupFirstAux seen xs else x :: dedupFirstAux (x :: seen) xs

/-- `[...new Set(l)]` in JS: keep the first occurrence of each element. -/
def dedupFirst {α : Type} [DecidableEq α] (l : List α) : List α :=
  dedupFirstAux [] l

/-- Replace the element at index `i` (in-place object mutation in JS). -/
def modifyAt {α : Type} : List α → Nat → (α → α) → List α
  | [], _, _ => []
  | x :: xs, 0, f => f x :: xs
  | x :: xs, n + 1, f => x :: modifyAt xs n f

/-- Bit `i` of the integer `m`, as computed by JS `(m >> i) & 1`:
arithmetic shift right is floor division by `2 ^ i`, and `& 1` keeps the
least significant bit of the two's-complement value, i.e. the
nonnegative remainder mod 2. -/
def bitAt (m : Int) (i : Nat) : Int :=
  (Int.fdiv m (2 ^ i)) % 2

/-- `data/table1/record.ts`: one candidate implicant. -/
structure Table1Record where
  minterms : List Int
  bits : List ELogicState
  isUsed : Bool
deriving DecidableEq

namespace Table1Record

/-- `Table1Record.fromMinterm`: the source loops `i` from
`numVariables - 1` down to `0`, pushing bit `i` of the minterm, so the
entry at list position `j` is bit `numVariables - 1 - j`. -/
def fromMinterm (minterm : Int) (numVariables : Nat) : Table1Record :=
  { minterms := [minterm]
    bits := (List.range numVariables).map (fun j =>
      if bitAt minterm (numVariables - 1 - j) = 1 then ELogicState.True else ELogicState.False)
    isUsed := false }

/-- `Table1Record.countOnes`: Hamming weight. -/
def countOnes (r : Table1Record) : Nat :=
  (r.bits.filter (fun b => decide (b = ELogicState.True))).length

/-- The scanning loop of `canCombineWith`: walk both bit lists, tracking
the position of the single difference found so far (`st`); a difference
where either side is DontCare, or a second difference, aborts with -1. -/
def canCombineAux : List ELogicState → List ELogicState → Nat → Option Nat → Int
  | [], [], _, none => -1
  | [], [], _, some p => Int.ofNat p
  | [], _ :: _, _, _ => -1
  | _ :: _, [], _, _ => -1
  | a :: as, b :: bs, i, st =>
    if a = b then canCombineAux as bs (i + 1) st
    else if a = ELogicState.DontCare ∨ b = ELogicState.DontCare then -1
    else
      match st with
      | none => canCombineAux as bs (i + 1) (some i)
      | some _ => -1

/-- `Table1Record.canCombineWith`: the single differing bit position, or
-1 when the records cannot combine. -/
def canCombineWith (r other : Table1Record) : Int :=
  if r.bits.length = other.bits.length then canCombineAux r.bits other.bits 0 none else -1

/-- `Table1Record.combineWith`: bit pattern is a copy of the receiver's
bits with `position` set to DontCare; minterms are the de-duplicated
(`new Set`) concatenation, sorted ascending by the numeric comparator. -/
def combineWith (r other : Table1Record) (position : Nat) : Table1Record :=
  { minterms := List.insertionSort (· ≤ ·) (dedupFirst (r.minterms ++ other.minterms))
    bits := r.bits.set position ELogicState.DontCare
    isUsed := false }

/-- `Table1Record.getKey`: the source joins the minterm list into a
comma-separated decimal string; that encoding is injective on integer
lists, so the minterm list itself serves as the same key. -/
def getKey (r : Table1Record) : List Int :=
  r.minterms

end Table1Record

/-- `data/table1/group.ts`: records sharing one Hamming weight. -/
structure Table1Group where
  onesCount : Nat
  records : List Table1Record
deriving DecidableEq

namespace Table1Group

/-- `Table1Group.containsRecord`: same-key membership test. -/
def containsRecord (g : Table1Group) (record : Table1Record) : Bool :=
  g.records.any (fun r => decide (r.getKey = record.getKey))

/-- `Table1Group.addRecord`: push at the end. -/
def addRecord (g : Table1Group) (record : Table1Record) : Table1Group :=
  { g with records := g.records ++ [record] }

end Table1Group

/-- `data/table1/column.ts`: one generation of records, grouped by
Hamming weight in a JS `Map` (insertion-ordered; keys unique). -/
structure Table1Column where
  groups : List Table1Group
deriving DecidableEq

namespace Table1Column

/-- `Table1Column.addRecord`: get or create the weight group
(`getOrCreateGroup` appends a new group in insertion order), then insert
unless a record with the same key is already present. -/
def addRecord (col : Table1Column) (record : Table1Record) : Table1Column :=
  let k := record.countOnes
  if col.groups.any (fun g => decide (g.onesCount = k)) then
    { groups := col.groups.map (fun g =>
        if g.onesCount = k then (if g.containsRecord record then g else g.addRecord record) else g) }
  else
    { groups := col.groups ++ [{ onesCount := k, records := [record] }] }

/-- `Table1Column.getSortedGroups`: groups sorted ascending by weight. -/
def getSortedGroups (col : Table1Column) : List Table1Group :=
  List.insertionSort (fun g g' => g.onesCount ≤ g'.onesCount) col.groups

/-- `Table1Column.getAllRecords`: all records, in map iteration order. -/
def getAllRecords (col : Table1Column) : List Table1Record :=
  (col.groups.map (fun g => g.records)).flatten

/-- `Table1Column.getUnusedRecords`: records whose `isUsed` flag was
never set; these are the prime implicants contributed by this column. -/
def getUnusedRecords (col : Table1Column) : List Table1Record :=
  (col.groups.map (fun g => g.records.filter (fun r => !r.isUsed))).flatten

/-- `Table1Column.isEmpty`. -/
def isEmpty (col : Table1Column) : Bool :=
  col.groups.isEmpty

end Table1Column

/-- The `isUsed` marking performed by `combineColumn`'s sweep: a record
of group `g` is marked when it combines with some record of the group
adjacent to `g` in the sorted group array (on either side).  The sweep
never reads the flags, so the marking is a pure function of the column. -/
def recordUsedInPass (sorted : List Table1Group) (g : Table1Group) (r : Table1Record) : Bool :=
  (sorted.zip sorted.tail).any (fun AB =>
    (decide (AB.1 = g) && AB.2.records.any (fun r2 => decide (0 ≤ r.canCombineWith r2))) ||
    (decide (AB.2 = g) && AB.1.records.any (fun r1 => decide (0 ≤ r1.canCombineWith r))))

/-- The effect of `combineColumn` on the column it was given: every
record that participated in a successful combination has `isUsed` set. -/
def markUsedColumn (col : Table1Column) : Table1Column :=
  { groups := col.groups.map (fun g =>
      { g with records := g.records.map (fun r =>
          if recordUsedInPass col.getSortedGroups g r then { r with isUsed := true } else r) }) }

/-- Inner double loop of `QuineMcCluskeySolver.combineColumn` for one
adjacent pair of groups: try every record of `A` against every record of
`B` and insert each successful combination into the next column. -/
def combinePairInto (next : Table1Column) (A B : Table1Group) : Table1Column :=
  A.records.foldl (fun acc r1 =>
    B.records.foldl (fun acc2 r2 =>
      if 0 ≤ r1.canCombineWith r2 then
        acc2.addRecord (r1.combineWith r2 (r1.canCombineWith r2).toNat)
      else acc2) acc) next

namespace QuineMcCluskeySolver

/-- `QuineMcCluskeySolver.combineColumn`: the next generation built from
all array-adjacent pairs of the sorted groups. -/
def combineColumn (col : Table1Column) : Table1Column :=
  ((col.getSortedGroups).zip (col.getSortedGroups).tail).foldl
    (fun acc AB => combinePairInto acc AB.1 AB.2) { groups := [] }

/-- The `while (!currentColumn.isEmpty())` loop of `findPrimeImplicants`,
with explicit fuel.  Each iteration computes the next column, collects
the unused (never-combined) records of the current column, and moves on.
`generationsEmptyAt` below shows that `numVariables + 1` iterations
always reach an empty column, so any fuel of at least `numVariables + 2`
yields the loop's true result. -/
def findPrimeImplicantsGo : Nat → Table1Column → List Table1Record → List Table1Record
  | 0, _, acc => acc
  | fuel + 1, col, acc =>
    if col.isEmpty then acc
    else findPrimeImplicantsGo fuel (combineColumn col) (acc ++ (markUsedColumn col).getUnusedRecords)

/-- Generation 0 of `findPrimeImplicants`: one single-minterm record per
distinct term (minterms and dontcares combined through a `Set`). -/
def initialColumn (minterms dontcares : List Int) (numVariables : Nat) : Table1Column :=
  (dedupFirst (minterms ++ dontcares)).foldl
    (fun col term => col.addRecord (Table1Record.fromMinterm term numVariables)) { groups := [] }

/-- Loop of `deduplicatePrimeImplicants` with the `seen` key set explicit. -/
def deduplicatePrimeImplicantsAux (seen : List (List Int)) :
    List Table1Record → List Table1Record
  | [] => []
  | imp :: rest =>
    if imp.getKey ∈ seen then deduplicatePrimeImplicantsAux seen rest
    else imp :: deduplicatePrimeImplicantsAux (imp.getKey :: seen) rest

/-- `QuineMcCluskeySolver.deduplicatePrimeImplicants`: keep the first
record carrying each minterm-set key. -/
def deduplicatePrimeImplicants (implicants : List Table1Record) : List Table1Record :=
  deduplicatePrimeImplicantsAux [] implicants

/-- `QuineMcCluskeySolver.findPrimeImplicants`. -/
def findPrimeImplicants (minterms dontcares : List Int) (numVariables : Nat) :
    List Table1Record :=
  deduplicatePrimeImplicants
    (findPrimeImplicantsGo (numVariables + 2) (initialColumn minterms dontcares numVariables) [])

end QuineMcCluskeySolver

/-- `data/table2/row.ts`: one prime implicant plus its selection flag.
The coverage `Map` has exactly the record's minterms as keys, so it is
represented by the record itself. -/
structure Table2Row where
  record : Table1Record
  isSelected : Bool
deriving DecidableEq

namespace Table2Row

/-- `Table2Row.coversMinterm`: key lookup in the coverage map. -/
def coversMinterm (row : Table2Row) (minterm : Int) : Bool :=
  decide (minterm ∈ row.record.minterms)

/-- `Table2Row.getCoveredMinterms`: the coverage map's keys, in
insertion order with duplicates collapsed. -/
def getCoveredMinterms (row : Table2Row) : List Int :=
  dedupFirst row.record.minterms

/-- `Table2Row.countCoverage`: how many of the given still-uncovered
minterms this row covers. -/
def countCoverage (row : Table2Row) (uncovered : List Int) : Nat :=
  (row.getCoveredMinterms.filter (fun m => decide (m ∈ uncovered))).length

/-- `Table2Row.getLiteralCount`: bits that are not DontCare. -/
def getLiteralCount (row : Table2Row) : Nat :=
  (row.record.bits.filter (fun b => decide (¬ b = ELogicState.DontCare))).length

end Table2Row

/-- `data/table2/column.ts`: one required minterm plus its covered flag. -/
structure Table2Column where
  minterm : Int
  isCovered : Bool
deriving DecidableEq

/-- `data/table2/table2.ts`: the coverage table.  `uncoveredMinterms` is
a JS `Set`, modelled as an insertion-ordered duplicate-free list. -/
structure Table2 where
  rows : List Table2Row
  columns : List Table2Column
  uncoveredMinterms : List Int
deriving DecidableEq

/-- The `Table2` constructor. -/
def mkTable2 (primeImplicants : List Table1Record) (minterms : List Int) : Table2 :=
  { rows := primeImplicants.map (fun record => { record := record, isSelected := false })
    columns := minterms.map (fun m => { minterm := m, isCovered := false })
    uncoveredMinterms := dedupFirst minterms }

/-- `this.columns.find((c) => c.minterm === minterm)` followed by setting
`isCovered`: only the first column carrying the minterm is marked. -/
def setFirstCovered : List Table2Column → Int → List Table2Column
  | [], _ => []
  | c :: cs, m =>
    if c.minterm = m then { c with isCovered := true } :: cs else c :: setFirstCovered cs m

namespace Table2

/-- `Table2.markCovered`: for each minterm covered by the row, mark the
(first) matching column and delete the minterm from the uncovered set. -/
def markCovered (t : Table2) (row : Table2Row) : Table2 :=
  row.getCoveredMinterms.foldl
    (fun acc m =>
      { acc with
        columns := setFirstCovered acc.columns m
        uncoveredMinterms := acc.uncoveredMinterms.filter (fun x => decide (¬ x = m)) })
    t

/-- `Table2.selectRow` (also the selection statements inside
`findEssentialPrimeImplicants`): set the row's flag, then mark what it
covers.  Rows are addressed by index, modelling JS object identity. -/
def selectRow (t : Table2) (i : Nat) : Table2 :=
  match t.rows[i]? with
  | none => t
  | some row =>
    markCovered { t with rows := modifyAt t.rows i (fun r => { r with isSelected := true }) } row

/-- The row filter inside `findEssentialPrimeImplicants`: indices of the
unselected rows covering the given minterm, in row order. -/
def coveringRowIdxs (t : Table2) (minterm : Int) : List Nat :=
  (List.range t.rows.length).filter (fun i =>
    match t.rows[i]? with
    | some row => !row.isSelected && row.coversMinterm minterm
    | none => false)

/-- The `for (const column of this.columns)` loop of
`findEssentialPrimeImplicants`, walking column indices; the column list
itself never changes length.  Returns the updated table and the indices
of the essential rows in discovery order. -/
def findEssentialGo : Nat → Nat → Table2 → List Nat → Table2 × List Nat
  | 0, _, t, ess => (t, ess)
  | n + 1, idx, t, ess =>
    match t.columns[idx]? with
    | none => (t, ess)
    | some column =>
      if column.isCovered then findEssentialGo n (idx + 1) t ess
      else
        match t.coveringRowIdxs column.minterm with
        | [i] => findEssentialGo n (idx + 1) (t.selectRow i) (ess ++ [i])
        | _ => findEssentialGo n (idx + 1) t ess

/-- `Table2.findEssentialPrimeImplicants`. -/
def findEssentialPrimeImplicants (t : Table2) : Table2 × List Nat :=
  findEssentialGo t.columns.length 0 t []

/-- `Table2.getUncoveredMinterms` (returns a copy of the set). -/
def getUncoveredMinterms (t : Table2) : List Int :=
  t.uncoveredMinterms

/-- `Table2.isFullyCovered`. -/
def isFullyCovered (t : Table2) : Bool :=
  t.uncoveredMinterms.isEmpty

/-- `Table2.getUnselectedRows`. -/
def getUnselectedRows (t : Table2) : List Table2Row :=
  t.rows.filter (fun r => !r.isSelected)

/-- `Table2.getSelectedRows`: note this filters the row array, so the
result is in row (prime-implicant) order, not in selection order. -/
def getSelectedRows (t : Table2) : List Table2Row :=
  t.rows.filter (fun r => r.isSelected)

/-- Candidate filter of `applyPetricksMethod`: unselected rows covering
at least one currently uncovered minterm, as row indices. -/
def candidateIdxs (t : Table2) (uncovered : List Int) : List Nat :=
  (List.range t.rows.length).filter (fun i =>
    match t.rows[i]? with
    | some row => !row.isSelected && decide (0 < row.countCoverage uncovered)
    | none => false)

/-- Coverage count of the row at index `i`. -/
def coverageAt (t : Table2) (uncovered : List Int) (i : Nat) : Nat :=
  match t.rows[i]? with
  | some row => row.countCoverage uncovered
  | none => 0

/-- Literal count of the row at index `i`. -/
def literalsAt (t : Table2) (i : Nat) : Nat :=
  match t.rows[i]? with
  | some row => row.getLiteralCount
  | none => 0

/-- `candidates.sort(cmp)[0]` for the comparator "coverage descending,
then literal count ascending": with a stable sort this is the first
candidate among those with maximal coverage and, within those, minimal
literal count — computed here by a single pass keeping the current best
and replacing it only on strict improvement. -/
def pickBestFrom (t : Table2) (uncovered : List Int) (first : Nat) (rest : List Nat) : Nat :=
  rest.foldl (fun best j =>
    if t.coverageAt uncovered best < t.coverageAt uncovered j then j
    else if t.coverageAt uncovered j = t.coverageAt uncovered best ∧ t.literalsAt j < t.literalsAt best
    then j
    else best) first

/-- The `while (!table2.isFullyCovered())` loop of `applyPetricksMethod`
with explicit fuel.  Every iteration selects a previously unselected
row, so the number of iterations is bounded by the number of rows; with
fuel `t.rows.length` the fuel can run out only when no unselected row
remains, in which case the next iteration of the unbounded loop would
exit through its `break` anyway, with the same result. -/
def petrickGo : Nat → Table2 → List Nat → Table2 × List Nat
  | 0, t, sel => (t, sel)
  | fuel + 1, t, sel =>
    if t.isFullyCovered then (t, sel)
    else
      let currentUncovered := t.getUncoveredMinterms
      match t.candidateIdxs currentUncovered with
      | [] => (t, sel)
      | c :: cs =>
        let best := t.pickBestFrom currentUncovered c cs
        petrickGo fuel (t.selectRow best) (sel ++ [best])

/-- `QuineMcCluskeySolver.applyPetricksMethod` (the greedy residual
cover).  Returns the updated table and the indices of the residual rows
in selection order. -/
def applyPetricksMethod (t : Table2) : Table2 × List Nat :=
  if t.getUncoveredMinterms.isEmpty ∨ t.getUnselectedRows.isEmpty then (t, [])
  else if (t.getUnselectedRows.filter
      (fun row => decide (0 < row.countCoverage t.getUncoveredMinterms))).isEmpty then (t, [])
  else petrickGo t.rows.length t []

end Table2

namespace QuineMcCluskeySolver

/-- `QuineMcCluskeySolver.selectPrimeImplicants`, instrumented to also
return the essential-selection order and the residual-selection order
(as row indices).  The source discards these orders and returns
`getSelectedRows`, which is in row order. -/
def selectPrimeImplicantsFull (primeImplicants : List Table1Record) (minterms : List Int) :
    Table2 × List Nat × List Nat :=
  if ((mkTable2 primeImplicants minterms).findEssentialPrimeImplicants).1.isFullyCovered then
    (((mkTable2 primeImplicants minterms).findEssentialPrimeImplicants).1,
      ((mkTable2 primeImplicants minterms).findEssentialPrimeImplicants).2, [])
  else
    ((((mkTable2 primeImplicants minterms).findEssentialPrimeImplicants).1.applyPetricksMethod).1,
      ((mkTable2 primeImplicants minterms).findEssentialPrimeImplicants).2,
      (((mkTable2 primeImplicants minterms).findEssentialPrimeImplicants).1.applyPetricksMethod).2)

/-- `QuineMcCluskeySolver.selectPrimeImplicants`: the selected rows'
records, as returned to `solve`. -/
def selectPrimeImplicants (primeImplicants : List Table1Record) (minterms : List Int) :
    List Table1Record :=
  ((selectPrimeImplicantsFull primeImplicants minterms).1.getSelectedRows).map
    (fun row => row.record)

end QuineMcCluskeySolver

/-- `required-loop.ts`: the public output object. -/
structure RequiredLoop where
  minterms : List Int
  bits : List ELogicState
deriving DecidableEq

/-- The `RequiredLoop` constructor: copies and sorts the minterms
ascending, copies the bits. -/
def RequiredLoop.create (minterms : List Int) (bits : List ELogicState) : RequiredLoop :=
  { minterms := List.insertionSort (· ≤ ·) minterms, bits := bits }

/-- The complement marker appended after a negated variable (the
apostrophe character, code point 39). -/
def complementMark : String :=
  String.singleton (Char.ofNat 39)

/-- `inputVariables[i] || 'x' + i`: the name at position `i`, with the
implementation-defined placeholder for a missing (or empty, hence falsy)
entry. -/
def varNameOrFallback (inputVariables : List String) (i : Nat) : String :=
  match inputVariables[i]? with
  | some s => if s = "" then "x" ++ Nat.repr i else s
  | none => "x" ++ Nat.repr i

/-- The literal-collecting loop of `RequiredLoop.toString`: one literal
for each False (complemented) or True (plain) position, nothing for
DontCare. -/
def buildTerms : List ELogicState → List String → Nat → List String
  | [], _, _ => []
  | b :: bs, vars, i =>
    (match b with
     | ELogicState.False => [varNameOrFallback vars i ++ complementMark]
     | ELogicState.True => [varNameOrFallback vars i]
     | ELogicState.DontCare => []) ++ buildTerms bs vars (i + 1)

/-- `RequiredLoop.toString`. -/
def RequiredLoop.toString (loop : RequiredLoop) (inputVariables : List String) : String :=
  if loop.bits.isEmpty then "1"
  else if loop.bits.all (fun b => decide (b = ELogicState.DontCare)) then "1"
  else
    let terms := buildTerms loop.bits inputVariables 0
    if terms.isEmpty then "1" else String.join terms

/-- `RequiredLoop.getLiteralCount`. -/
def RequiredLoop.getLiteralCount (loop : RequiredLoop) : Nat :=
  (loop.bits.filter (fun b => decide (¬ b = ELogicState.DontCare))).length

namespace QuineMcCluskeySolver

/-- The validation failure message of `solve`. -/
def validationMessage (term maxPossibleTerm : Int) (vars : Nat) : String :=
  s!"Term {term} exceeds maximum possible value {maxPossibleTerm} for {vars} variables"

/-- `QuineMcCluskeySolver.solve` for calls that supply the variable
count explicitly (every claim under scrutiny quantifies over such
calls; the auto-detection branch is then dead code).  A thrown `Error`
is modelled as `Except.error` carrying the message. -/
def solve (minterms dontcares : List Int) (numVariables : Nat) :
    Except String (List RequiredLoop) :=
  if minterms.isEmpty then Except.ok []
  else
    let allTerms := minterms ++ dontcares
    let maxPossibleTerm : Int := 2 ^ numVariables - 1
    match allTerms.find? (fun term => decide (maxPossibleTerm < term)) with
    | some term => Except.error (validationMessage term maxPossibleTerm numVariables)
    | none =>
      let primeImplicants := findPrimeImplicants minterms dontcares numVariables
      if primeImplicants.isEmpty then Except.ok []
      else
        Except.ok ((selectPrimeImplicants primeImplicants minterms).map
          (fun record => RequiredLoop.create record.minterms record.bits))

end QuineMcCluskeySolver

/-! ## Helper lemmas about the list-level building blocks -/

theorem mem_dedupFirstAux {α : Type} [DecidableEq α] (seen : List α) (l : List α) (x : α) :
    x ∈ dedupFirstAux seen l ↔ x ∈ l ∧ x ∉ seen := by
  induction l generalizing seen with
  | nil => simp [dedupFirstAux]
  | cons y ys ih =>
    by_cases hy : y ∈ seen
    · simp only [dedupFirstAux, if_pos hy, ih, List.mem_cons]
      constructor
      · rintro ⟨h1, h2⟩; exact ⟨Or.inr h1, h2⟩
      · rintro ⟨h1 | h1, h2⟩
        · subst h1; exact absurd hy h2
        · exact ⟨h1, h2⟩
    · simp only [dedupFirstAux, if_neg hy, List.mem_cons, ih]
      constructor
      · rintro (h | ⟨h1, h2⟩)
        · subst h; exact ⟨Or.inl rfl, hy⟩
        · simp only [List.mem_cons, not_or] at h2
          exact ⟨Or.inr h1, h2.2⟩
      · rintro ⟨h1 | h1, h2⟩
        · subst h1; exact Or.inl rfl
        · by_cases hx : x = y
          · subst hx; exact Or.inl rfl
          · exact Or.inr ⟨h1, by simp [List.mem_cons, hx, h2]⟩

theorem mem_dedupFirst {α : Type} [DecidableEq α] (l : List α) (x : α) :
    x ∈ dedupFirst l ↔ x ∈ l := by
  simp [dedupFirst, mem_dedupFirstAux]

theorem nodup_dedupFirstAux {α : Type} [DecidableEq α] (seen : List α) (l : List α) :
    (dedupFirstAux seen l).Nodup := by
  induction l generalizing seen with
  | nil => simp [dedupFirstAux]
  | cons y ys ih =>
    by_cases hy : y ∈ seen
    · simpa [dedupFirstAux, if_pos hy] using ih seen
    · simp only [dedupFirstAux, if_neg hy, List.nodup_cons]
      refine ⟨?_, ih (y :: seen)⟩
      intro hmem
      exact ((mem_dedupFirstAux (y :: seen) ys y).1 hmem).2 (List.mem_cons_self y seen)

theorem nodup_dedupFirst {α : Type} [DecidableEq α] (l : List α) : (dedupFirst l).Nodup :=
  nodup_dedupFirstAux [] l

/-- The ascending sort used throughout (models the JS numeric sort). -/
theorem sortInt_mem (l : List Int) (x : Int) :
    x ∈ List.insertionSort (· ≤ ·) l ↔ x ∈ l :=
  List.mem_insertionSort _

theorem sortInt_nodup (l : List Int) (h : l.Nodup) :
    (List.insertionSort (· ≤ ·) l).Nodup :=
  (List.perm_insertionSort _ l).symm.nodup h

theorem sortInt_sorted (l : List Int) :
    List.Sorted (· ≤ ·) (List.insertionSort (· ≤ ·) l) :=
  List.sorted_insertionSort _ l

theorem modifyAt_length {α : Type} (l : List α) (i : Nat) (f : α → α) :
    (modifyAt l i f).length = l.length := by
  induction l generalizing i with
  | nil => rfl
  | cons x xs ih =>
    cases i with
    | zero => rfl
    | succ n => simpa [modifyAt] using ih n

theorem modifyAt_getElem? {α : Type} (l : List α) (i : Nat) (f : α → α) (j : Nat) :
    (modifyAt l i f)[j]? = if j = i then l[j]?.map f else l[j]? := by
  induction l generalizing i j with
  | nil => simp [modifyAt]
  | cons x xs ih =>
    cases i with
    | zero =>
      cases j with
      | zero => simp [modifyAt]
      | succ m => simp [modifyAt]
    | succ n =>
      cases j with
      | zero => simp [modifyAt]
      | succ m =>
        simp only [modifyAt, List.getElem?_cons_succ, ih n m]
        by_cases h : m = n <;> simp [h]

/-! ## Claim C7: symmetry of canCombineWith -/

theorem canCombineAux_cons_cons (a b : ELogicState) (as bs : List ELogicState) (i : Nat)
    (st : Option Nat) :
    Table1Record.canCombineAux (a :: as) (b :: bs) i st =
      if a = b then Table1Record.canCombineAux as bs (i + 1) st
      else if a = ELogicState.DontCare ∨ b = ELogicState.DontCare then -1
      else
        match st with
        | none => Table1Record.canCombineAux as bs (i + 1) (some i)
        | some _ => -1 :=
  rfl

theorem canCombineAux_symm (as bs : List ELogicState) (i : Nat) (st : Option Nat) :
    Table1Record.canCombineAux as bs i st = Table1Record.canCombineAux bs as i st := by
  induction as generalizing bs i st with
  | nil =>
    cases bs with
    | nil => rfl
    | cons b bs => cases st <;> rfl
  | cons a as ih =>
    cases bs with
    | nil => cases st <;> rfl
    | cons b bs =>
      rw [canCombineAux_cons_cons, canCombineAux_cons_cons]
      by_cases hab : a = b
      · subst hab
        rw [if_pos rfl, if_pos rfl]
        exact ih bs (i + 1) st
      · have hba : ¬ b = a := fun h => hab h.symm
        rw [if_neg hab, if_neg hba]
        by_cases hdc : a = ELogicState.DontCare ∨ b = ELogicState.DontCare
        · have hdc2 : b = ELogicState.DontCare ∨ a = ELogicState.DontCare := hdc.symm
          rw [if_pos hdc, if_pos hdc2]
        · have hdc2 : ¬ (b = ELogicState.DontCare ∨ a = ELogicState.DontCare) := fun h =>
            hdc h.symm
          rw [if_neg hdc, if_neg hdc2]
          cases st with
          | none => exact ih bs (i + 1) (some i)
          | some p => rfl

/-- Claim C7: `canCombineWith` is symmetric — both directions report the
same combinability verdict and, when combinable, the same differing bit
position. -/
theorem canCombineWith_symmetric (a b : Table1Record) :
    a.canCombineWith b = b.canCombineWith a := by
  unfold Table1Record.canCombineWith
  by_cases h : a.bits.length = b.bits.length
  · rw [if_pos h, if_pos h.symm, canCombineAux_symm]
  · have h2 : ¬ b.bits.length = a.bits.length := fun hh => h hh.symm
    rw [if_neg h, if_neg h2]

/-! ## Characterization of a successful canCombineWith -/

theorem canCombineAux_nil_nil_none (i : Nat) :
    Table1Record.canCombineAux [] [] i none = -1 :=
  rfl

theorem canCombineAux_nil_nil_some (i q : Nat) :
    Table1Record.canCombineAux [] [] i (some q) = Int.ofNat q :=
  rfl

theorem canCombineAux_nil_cons (b : ELogicState) (bs : List ELogicState) (i : Nat)
    (st : Option Nat) : Table1Record.canCombineAux [] (b :: bs) i st = -1 := by
  cases st <;> rfl

theorem canCombineAux_cons_nil (a : ELogicState) (as : List ELogicState) (i : Nat)
    (st : Option Nat) : Table1Record.canCombineAux (a :: as) [] i st = -1 := by
  cases st <;> rfl

theorem canCombineAux_nonneg_some (as : List ELogicState) :
    ∀ (bs : List ELogicState) (i q : Nat) (p : Int),
    Table1Record.canCombineAux as bs i (some q) = p → 0 ≤ p → p = Int.ofNat q ∧ as = bs := by
  induction as with
  | nil =>
    intro bs i q p h hp
    cases bs with
    | nil => exact ⟨h.symm, rfl⟩
    | cons b bs => rw [canCombineAux_nil_cons] at h; omega
  | cons a as ih =>
    intro bs i q p h hp
    cases bs with
    | nil => rw [canCombineAux_cons_nil] at h; omega
    | cons b bs =>
      rw [canCombineAux_cons_cons] at h
      by_cases hab : a = b
      · rw [if_pos hab] at h
        obtain ⟨hq, he⟩ := ih bs (i + 1) q p h hp
        exact ⟨hq, by rw [hab, he]⟩
      · rw [if_neg hab] at h
        by_cases hdc : a = ELogicState.DontCare ∨ b = ELogicState.DontCare
        · rw [if_pos hdc] at h; omega
        · rw [if_neg hdc] at h
          have h2 : (-1 : Int) = p := h
          omega

theorem canCombineAux_nonneg_none (as : List ELogicState) :
    ∀ (bs : List ELogicState) (i : Nat) (p : Int),
    Table1Record.canCombineAux as bs i none = p → 0 ≤ p →
    ∃ j, j < as.length ∧ p = Int.ofNat (i + j) ∧
      ∃ x y, as[j]? = some x ∧ bs[j]? = some y ∧ ¬ x = y ∧
        ¬ x = ELogicState.DontCare ∧ ¬ y = ELogicState.DontCare := by
  induction as with
  | nil =>
    intro bs i p h hp
    cases bs with
    | nil => rw [canCombineAux_nil_nil_none] at h; omega
    | cons b bs => rw [canCombineAux_nil_cons] at h; omega
  | cons a as ih =>
    intro bs i p h hp
    cases bs with
    | nil => rw [canCombineAux_cons_nil] at h; omega
    | cons b bs =>
      rw [canCombineAux_cons_cons] at h
      by_cases hab : a = b
      · rw [if_pos hab] at h
        obtain ⟨j, hj, hpj, x, y, hx, hy, hxy, hxd, hyd⟩ := ih bs (i + 1) p h hp
        refine ⟨j + 1, by simpa using hj, ?_, x, y, by simpa using hx, by simpa using hy,
          hxy, hxd, hyd⟩
        rw [hpj]
        congr 1
        omega
      · rw [if_neg hab] at h
        by_cases hdc : a = ELogicState.DontCare ∨ b = ELogicState.DontCare
        · rw [if_pos hdc] at h; omega
        · rw [if_neg hdc] at h
          have h2 : Table1Record.canCombineAux as bs (i + 1) (some i) = p := h
          obtain ⟨hq, _⟩ := canCombineAux_nonneg_some as bs (i + 1) i p h2 hp
          push_neg at hdc
          exact ⟨0, by simp, by simpa using hq, a, b, by simp, by simp, hab, hdc.1, hdc.2⟩

/-- Everything a successful `canCombineWith` guarantees: equal lengths,
the returned position is in range, the two records differ exactly there,
and neither has DontCare there. -/
theorem canCombineWith_nonneg (a b : Table1Record) (p : Int)
    (h : a.canCombineWith b = p) (hp : 0 ≤ p) :
    a.bits.length = b.bits.length ∧ p.toNat < a.bits.length ∧
      ∃ x y, a.bits[p.toNat]? = some x ∧ b.bits[p.toNat]? = some y ∧ ¬ x = y ∧
        ¬ x = ELogicState.DontCare ∧ ¬ y = ELogicState.DontCare := by
  unfold Table1Record.canCombineWith at h
  by_cases hlen : a.bits.length = b.bits.length
  · rw [if_pos hlen] at h
    obtain ⟨j, hj, hpj, x, y, hx, hy, hxy, hxd, hyd⟩ :=
      canCombineAux_nonneg_none a.bits b.bits 0 p h hp
    have hpt : p.toNat = j := by rw [hpj]; simp
    exact ⟨hlen, by rw [hpt]; exact hj, x, y, by rw [hpt]; exact hx, by rw [hpt]; exact hy,
      hxy, hxd, hyd⟩
  · rw [if_neg hlen] at h; omega

/-! ## Claim C8: correctness of combineWith -/

/-- Claim C8: for records of equal bit-pattern length and a position
actually returned by `canCombineWith`, the combined record's minterm
list is the ascending, duplicate-free union of the two parents' minterm
lists, and its bit pattern is the receiver's pattern with exactly the
returned position replaced by DontCare. -/
theorem combineWith_correct (a b : Table1Record) (p : Int)
    (hlen : a.bits.length = b.bits.length)
    (h : a.canCombineWith b = p) (hp : 0 ≤ p) :
    List.Sorted (· ≤ ·) (a.combineWith b p.toNat).minterms ∧
      (a.combineWith b p.toNat).minterms.Nodup ∧
      (∀ x : Int, x ∈ (a.combineWith b p.toNat).minterms ↔ x ∈ a.minterms ∨ x ∈ b.minterms) ∧
      (a.combineWith b p.toNat).bits.length = a.bits.length ∧
      (a.combineWith b p.toNat).bits[p.toNat]? = some ELogicState.DontCare ∧
      ∀ j, ¬ j = p.toNat → (a.combineWith b p.toNat).bits[j]? = a.bits[j]? := by
  obtain ⟨-, hlt, -⟩ := canCombineWith_nonneg a b p h hp
  unfold Table1Record.combineWith
  refine ⟨sortInt_sorted _, sortInt_nodup _ (nodup_dedupFirst _), ?_, ?_, ?_, ?_⟩
  · intro x
    simp [sortInt_mem, mem_dedupFirst, List.mem_append]
  · exact List.length_set a.bits p.toNat ELogicState.DontCare
  · exact List.getElem?_set_self hlt
  · intro j hj
    exact List.getElem?_set_ne (fun hh => hj hh.symm)

/-- Witness for C8 at the records for minterms 1 and 3 over two
variables, whose differing position is 0. -/
theorem combineWith_correct_witness :
    List.Sorted (· ≤ ·)
        ((Table1Record.fromMinterm 1 2).combineWith (Table1Record.fromMinterm 3 2)
          (Int.toNat 0)).minterms ∧
      ((Table1Record.fromMinterm 1 2).combineWith (Table1Record.fromMinterm 3 2)
          (Int.toNat 0)).minterms.Nodup ∧
      (∀ x : Int,
        x ∈ ((Table1Record.fromMinterm 1 2).combineWith (Table1Record.fromMinterm 3 2)
          (Int.toNat 0)).minterms ↔
          x ∈ (Table1Record.fromMinterm 1 2).minterms ∨
            x ∈ (Table1Record.fromMinterm 3 2).minterms) ∧
      ((Table1Record.fromMinterm 1 2).combineWith (Table1Record.fromMinterm 3 2)
          (Int.toNat 0)).bits.length = (Table1Record.fromMinterm 1 2).bits.length ∧
      ((Table1Record.fromMinterm 1 2).combineWith (Table1Record.fromMinterm 3 2)
          (Int.toNat 0)).bits[Int.toNat 0]? = some ELogicState.DontCare ∧
      ∀ j, ¬ j = Int.toNat 0 →
        ((Table1Record.fromMinterm 1 2).combineWith (Table1Record.fromMinterm 3 2)
          (Int.toNat 0)).bits[j]? = (Table1Record.fromMinterm 1 2).bits[j]? :=
  combineWith_correct (Table1Record.fromMinterm 1 2) (Table1Record.fromMinterm 3 2) 0
    (by decide) (by decide) (by decide)

/-! ## Claim C9: fromMinterm builds the binary representation -/

/-- The reconstruction used by claim C9's statement: read the bit
pattern as a binary number with index 0 most significant. -/
def reconstructBits (bits : List ELogicState) : Nat :=
  bits.foldl (fun acc b => 2 * acc + (if b = ELogicState.True then 1 else 0)) 0

theorem bitAt_natCast (m i : Nat) : bitAt (m : Int) i = ((m / 2 ^ i % 2 : Nat) : Int) := by
  unfold bitAt
  rw [Int.fdiv_eq_ediv _ (by positivity)]
  push_cast
  rfl

theorem fromMinterm_bits_succ (m : Int) (v : Nat) :
    (Table1Record.fromMinterm m (v + 1)).bits =
      (if bitAt m v = 1 then ELogicState.True else ELogicState.False) ::
        (Table1Record.fromMinterm m v).bits := by
  unfold Table1Record.fromMinterm
  simp only [List.range_succ_eq_map, List.map_cons, List.map_map]
  congr 1
  apply List.map_congr_left
  intro j _
  have harith : v - (j + 1) = v - 1 - j := by omega
  simp [Function.comp, Nat.succ_eq_add_one, harith]

theorem fromMinterm_foldl (m : Nat) :
    ∀ (v : Nat) (acc : Nat),
      (Table1Record.fromMinterm (m : Int) v).bits.foldl
        (fun acc b => 2 * acc + (if b = ELogicState.True then 1 else 0)) acc =
      acc * 2 ^ v + m % 2 ^ v := by
  intro v
  induction v with
  | zero =>
    intro acc
    simp [Table1Record.fromMinterm, Nat.mod_one]
  | succ v ih =>
    intro acc
    rw [fromMinterm_bits_succ, List.foldl_cons, ih]
    have hbit : bitAt (m : Int) v = ((m / 2 ^ v % 2 : Nat) : Int) := bitAt_natCast m v
    have hq : m / 2 ^ v % 2 = 0 ∨ m / 2 ^ v % 2 = 1 := by omega
    have hstep :
        (2 * acc + (if (if bitAt (m : Int) v = 1 then ELogicState.True else ELogicState.False) =
          ELogicState.True then 1 else 0)) = 2 * acc + m / 2 ^ v % 2 := by
      rcases hq with hq | hq
      · rw [hbit, hq]
        simp
      · rw [hbit, hq]
        simp
    rw [hstep]
    have hmod : m % 2 ^ (v + 1) = m % 2 ^ v + 2 ^ v * (m / 2 ^ v % 2) := by
      rw [Nat.pow_succ, Nat.mod_mul]
    rw [hmod, Nat.pow_succ]
    ring

/-- Claim C9: for `0 ≤ m ≤ 2 ^ v - 1`, `fromMinterm m v` has a bit
pattern of length `v` whose entry at position `i` is bit `v - 1 - i` of
`m`, so reading the pattern back as a binary number (index 0 most
significant) yields `m`. -/
theorem fromMinterm_roundtrip (m : Int) (v : Nat) (h0 : 0 ≤ m) (h1 : m ≤ 2 ^ v - 1) :
    (Table1Record.fromMinterm m v).bits.length = v ∧
      (∀ i, i < v → (Table1Record.fromMinterm m v).bits[i]? =
        some (if m.toNat.testBit (v - 1 - i) then ELogicState.True else ELogicState.False)) ∧
      (reconstructBits (Table1Record.fromMinterm m v).bits : Int) = m := by
  have hm : ((m.toNat : Nat) : Int) = m := Int.toNat_of_nonneg h0
  refine ⟨by simp [Table1Record.fromMinterm], ?_, ?_⟩
  · intro i hi
    have hb : bitAt m (v - 1 - i) = ((m.toNat / 2 ^ (v - 1 - i) % 2 : Nat) : Int) := by
      rw [← hm]; exact bitAt_natCast m.toNat (v - 1 - i)
    have hget : (Table1Record.fromMinterm m v).bits[i]? =
        some (if bitAt m (v - 1 - i) = 1 then ELogicState.True else ELogicState.False) := by
      unfold Table1Record.fromMinterm
      simp [List.getElem?_range hi]
    rw [hget, Nat.testBit_to_div_mod]
    by_cases hq : m.toNat / 2 ^ (v - 1 - i) % 2 = 1
    · simp [hb, hq]
    · have hq0 : m.toNat / 2 ^ (v - 1 - i) % 2 = 0 := by omega
      simp [hb, hq0, hq]
  · have h3 : ((2 ^ v : Nat) : Int) = (2 : Int) ^ v := by push_cast; ring
    have hlt : m.toNat < 2 ^ v := by
      rw [Int.toNat_lt h0, h3]
      omega
    unfold reconstructBits
    rw [← hm, fromMinterm_foldl m.toNat v 0, Nat.zero_mul, Nat.zero_add,
      Nat.mod_eq_of_lt hlt]

/-- Witness for C9 at `m = 5`, `v = 3`. -/
theorem fromMinterm_roundtrip_witness :
    (Table1Record.fromMinterm 5 3).bits.length = 3 ∧
      (∀ i, i < 3 → (Table1Record.fromMinterm 5 3).bits[i]? =
        some (if (5 : Int).toNat.testBit (3 - 1 - i) then ELogicState.True
          else ELogicState.False)) ∧
      (reconstructBits (Table1Record.fromMinterm 5 3).bits : Int) = 5 :=
  fromMinterm_roundtrip 5 3 (by decide) (by decide)

/-! ## Claim C10: loop rendering -/

/-- One rendered literal, as described by the specification: variable
name plus complement marker for False, bare name for True, nothing for
DontCare. -/
def literalFor (b : ELogicState) (n : String) : List String :=
  match b with
  | ELogicState.False => [n ++ complementMark]
  | ELogicState.True => [n]
  | ELogicState.DontCare => []

/-- The rendering described by the specification (used to state claim
C10): the constant "1" for an empty or all-DontCare pattern, otherwise
the separator-free concatenation, in bit-position order, of one literal
per non-DontCare position. -/
def renderSpec (bits : List ELogicState) (names : List String) : String :=
  if bits = [] ∨ ∀ b ∈ bits, b = ELogicState.DontCare then "1"
  else String.join (List.zipWith literalFor bits names).flatten

theorem buildTerms_eq_zip (bits : List ELogicState) :
    ∀ (names : List String) (i : Nat),
    (∀ j, j < bits.length → ∃ s, names[i + j]? = some s ∧ ¬ s = "") →
    buildTerms bits names i = (List.zipWith literalFor bits (names.drop i)).flatten := by
  induction bits with
  | nil => intro names i _; simp [buildTerms]
  | cons b bs ih =>
    intro names i h
    obtain ⟨s, hs, hsne⟩ := h 0 (by simp)
    simp only [Nat.add_zero] at hs
    have hi : i < names.length := by
      by_contra hcon
      rw [List.getElem?_eq_none (by omega)] at hs
      exact Option.noConfusion hs
    have hdrop : names.drop i = names[i] :: names.drop (i + 1) :=
      List.drop_eq_getElem_cons hi
    have hsome : names[i] = s := by
      rw [List.getElem?_eq_getElem hi] at hs
      exact Option.some.inj hs
    have hvar : varNameOrFallback names i = s := by
      unfold varNameOrFallback
      rw [List.getElem?_eq_getElem hi, hsome]
      simp [hsne]
    have hrest : buildTerms bs names (i + 1) =
        (List.zipWith literalFor bs (names.drop (i + 1))).flatten := by
      apply ih names (i + 1)
      intro j hj
      have := h (j + 1) (by simpa using Nat.succ_lt_succ hj)
      simpa [Nat.add_assoc, Nat.add_comm 1 j, Nat.add_left_comm] using this
    rw [hdrop]
    cases b with
    | False =>
      simp only [buildTerms, literalFor, List.zipWith_cons_cons, List.flatten_cons, hvar,
        hsome, hrest]
    | True =>
      simp only [buildTerms, literalFor, List.zipWith_cons_cons, List.flatten_cons, hvar,
        hsome, hrest]
    | DontCare =>
      simp only [buildTerms, literalFor, List.zipWith_cons_cons, List.flatten_cons, hrest]

theorem buildTerms_ne_nil (bits : List ELogicState) :
    ∀ (names : List String) (i : Nat), (∃ b ∈ bits, ¬ b = ELogicState.DontCare) →
    ¬ buildTerms bits names i = [] := by
  induction bits with
  | nil => intro names i h; obtain ⟨b, hb, -⟩ := h; exact absurd hb (by simp)
  | cons b bs ih =>
    intro names i h
    cases b with
    | False => simp [buildTerms]
    | True => simp [buildTerms]
    | DontCare =>
      obtain ⟨c, hc, hcd⟩ := h
      have hc2 : c ∈ bs := by
        rcases List.mem_cons.1 hc with h1 | h1
        · exact absurd h1 hcd
        · exact h1
      simpa [buildTerms] using ih names (i + 1) ⟨c, hc2, hcd⟩

/-- Claim C10: when the variable-name list covers every bit position
with nonempty names, rendering yields the constant "1" exactly for an
empty or all-DontCare pattern, and otherwise the separator-free
concatenation of the per-position literals (name plus trailing
complement marker for False, bare name for True, DontCare omitted). -/
theorem toString_renders (loop : RequiredLoop) (names : List String)
    (hcov : loop.bits.length ≤ names.length)
    (hne : ∀ s ∈ names, ¬ s = "") :
    loop.toString names = renderSpec loop.bits names := by
  by_cases hnil : loop.bits = []
  · unfold RequiredLoop.toString renderSpec
    simp [hnil]
  · have hc1 : loop.bits.isEmpty = false := by
      rw [List.isEmpty_eq_false]; exact hnil
    by_cases hall : ∀ b ∈ loop.bits, b = ELogicState.DontCare
    · have hc2 : loop.bits.all (fun b => decide (b = ELogicState.DontCare)) = true := by
        rw [List.all_eq_true]
        intro b hb
        simpa using hall b hb
      unfold RequiredLoop.toString renderSpec
      simp only [hc1, hc2, Bool.false_eq_true, if_false, if_true]
      rw [if_pos (Or.inr hall)]
    · have hc2 : loop.bits.all (fun b => decide (b = ELogicState.DontCare)) = false := by
        rw [Bool.eq_false_iff]
        intro hcon
        exact hall (by simpa [List.all_eq_true] using hcon)
      have hex : ∃ b ∈ loop.bits, ¬ b = ELogicState.DontCare := by
        push_neg at hall
        exact hall
      have hterms : buildTerms loop.bits names 0 =
          (List.zipWith literalFor loop.bits (names.drop 0)).flatten := by
        apply buildTerms_eq_zip
        intro j hj
        have hjn : j < names.length := lt_of_lt_of_le hj hcov
        refine ⟨names[j], by simpa using List.getElem?_eq_getElem hjn, ?_⟩
        exact hne names[j] (List.getElem_mem hjn)
      have hnn : (buildTerms loop.bits names 0).isEmpty = false := by
        rw [List.isEmpty_eq_false]
        exact buildTerms_ne_nil loop.bits names 0 hex
      have hor : ¬ (loop.bits = [] ∨ ∀ b ∈ loop.bits, b = ELogicState.DontCare) := by
        rintro (h | h)
        · exact hnil h
        · exact hall h
      unfold RequiredLoop.toString renderSpec
      simp only [hc1, hc2, hnn, Bool.false_eq_true, if_false]
      rw [hterms, if_neg hor]
      simp

/-- Witness for C10 at the pattern `[False, True, DontCare]` with names
`A`, `B`, `C`. -/
theorem toString_renders_witness :
    RequiredLoop.toString
        { minterms := [1], bits := [ELogicState.False, ELogicState.True, ELogicState.DontCare] }
        ["A", "B", "C"] =
      renderSpec [ELogicState.False, ELogicState.True, ELogicState.DontCare] ["A", "B", "C"] :=
  toString_renders
    { minterms := [1], bits := [ELogicState.False, ELogicState.True, ELogicState.DontCare] }
    ["A", "B", "C"] (by decide) (by decide)

/-! ## Claim C5: the combination loop empties within numVariables + 1 generations -/

/-- DontCare count of a record's bit pattern. -/
def dcCount (r : Table1Record) : Nat :=
  (r.bits.filter (fun b => decide (b = ELogicState.DontCare))).length

/-- Every record of the column has `v` bits, exactly `k` of them DontCare. -/
def ColumnShape (v k : Nat) (col : Table1Column) : Prop :=
  ∀ r ∈ col.getAllRecords, r.bits.length = v ∧ dcCount r = k

theorem mem_getAllRecords (col : Table1Column) (r : Table1Record) :
    r ∈ col.getAllRecords ↔ ∃ g ∈ col.groups, r ∈ g.records := by
  simp [Table1Column.getAllRecords, List.mem_flatten]

theorem mem_addRecord (col : Table1Column) (rec r : Table1Record)
    (h : r ∈ (col.addRecord rec).getAllRecords) :
    r ∈ col.getAllRecords ∨ r = rec := by
  rw [mem_getAllRecords] at h
  obtain ⟨g, hg, hr⟩ := h
  unfold Table1Column.addRecord at hg
  by_cases hex : col.groups.any (fun g => decide (g.onesCount = rec.countOnes))
  · rw [if_pos hex] at hg
    simp only [List.mem_map] at hg
    obtain ⟨g0, hg0, hfg⟩ := hg
    by_cases hk : g0.onesCount = rec.countOnes
    · rw [if_pos hk] at hfg
      by_cases hc : g0.containsRecord rec
      · rw [if_pos hc] at hfg
        exact Or.inl ((mem_getAllRecords col r).2 ⟨g0, hg0, hfg ▸ hr⟩)
      · rw [if_neg hc] at hfg
        subst hfg
        rcases List.mem_append.1 hr with h1 | h1
        · exact Or.inl ((mem_getAllRecords col r).2 ⟨g0, hg0, h1⟩)
        · exact Or.inr (by simpa using h1)
    · rw [if_neg hk] at hfg
      exact Or.inl ((mem_getAllRecords col r).2 ⟨g0, hg0, hfg ▸ hr⟩)
  · rw [if_neg hex] at hg
    rcases List.mem_append.1 hg with h1 | h1
    · exact Or.inl ((mem_getAllRecords col r).2 ⟨g, h1, hr⟩)
    · have : g = { onesCount := rec.countOnes, records := [rec] } := by simpa using h1
      subst this
      exact Or.inr (by simpa using hr)

theorem mem_combinePairInto (A B : Table1Group) (r : Table1Record) :
    ∀ next : Table1Column, r ∈ (combinePairInto next A B).getAllRecords →
    r ∈ next.getAllRecords ∨
      ∃ r1 ∈ A.records, ∃ r2 ∈ B.records, ∃ p : Int,
        r1.canCombineWith r2 = p ∧ 0 ≤ p ∧ r = r1.combineWith r2 p.toNat := by
  have inner : ∀ (r1 : Table1Record) (Bs : List Table1Record) (acc : Table1Column),
      r ∈ (Bs.foldl (fun acc2 r2 =>
        if 0 ≤ r1.canCombineWith r2 then
          acc2.addRecord (r1.combineWith r2 (r1.canCombineWith r2).toNat)
        else acc2) acc).getAllRecords →
      r ∈ acc.getAllRecords ∨
        ∃ r2 ∈ Bs, ∃ p : Int, r1.canCombineWith r2 = p ∧ 0 ≤ p ∧
          r = r1.combineWith r2 p.toNat := by
    intro r1 Bs
    induction Bs with
    | nil => intro acc h; exact Or.inl h
    | cons r2 Bs ih =>
      intro acc h
      rw [List.foldl_cons] at h
      rcases ih _ h with h1 | ⟨r2x, hx, p, hp1, hp2, hp3⟩
      · have h1' : r ∈ (if 0 ≤ r1.canCombineWith r2 then
            acc.addRecord (r1.combineWith r2 (r1.canCombineWith r2).toNat)
          else acc).getAllRecords := h1
        by_cases hcomb : 0 ≤ r1.canCombineWith r2
        · rw [if_pos hcomb] at h1'
          rcases mem_addRecord _ _ _ h1' with h2 | h2
          · exact Or.inl h2
          · exact Or.inr ⟨r2, List.mem_cons_self r2 Bs, r1.canCombineWith r2, rfl, hcomb, h2⟩
        · rw [if_neg hcomb] at h1'
          exact Or.inl h1'
      · exact Or.inr ⟨r2x, List.mem_cons_of_mem r2 hx, p, hp1, hp2, hp3⟩
  intro next h
  unfold combinePairInto at h
  have outer : ∀ (As : List Table1Record) (acc : Table1Column),
      r ∈ (As.foldl (fun acc r1 =>
        B.records.foldl (fun acc2 r2 =>
          if 0 ≤ r1.canCombineWith r2 then
            acc2.addRecord (r1.combineWith r2 (r1.canCombineWith r2).toNat)
          else acc2) acc) acc).getAllRecords →
      r ∈ acc.getAllRecords ∨
        ∃ r1 ∈ As, ∃ r2 ∈ B.records, ∃ p : Int, r1.canCombineWith r2 = p ∧ 0 ≤ p ∧
          r = r1.combineWith r2 p.toNat := by
    intro As
    induction As with
    | nil => intro acc h2; exact Or.inl h2
    | cons r1 As ih =>
      intro acc h2
      rw [List.foldl_cons] at h2
      rcases ih _ h2 with h3 | ⟨r1x, hx, rest⟩
      · rcases inner r1 B.records acc h3 with h4 | ⟨r2, h5, p, h6, h7, h8⟩
        · exact Or.inl h4
        · exact Or.inr ⟨r1, List.mem_cons_self r1 As, r2, h5, p, h6, h7, h8⟩
      · exact Or.inr ⟨r1x, List.mem_cons_of_mem r1 hx, rest⟩
  have hfold : combinePairInto next A B =
      A.records.foldl (fun acc r1 =>
        B.records.foldl (fun acc2 r2 =>
          if 0 ≤ r1.canCombineWith r2 then
            acc2.addRecord (r1.combineWith r2 (r1.canCombineWith r2).toNat)
          else acc2) acc) next := rfl
  exact outer A.records next h

theorem mem_combineColumn (col : Table1Column) (r : Table1Record)
    (h : r ∈ (QuineMcCluskeySolver.combineColumn col).getAllRecords) :
    ∃ A ∈ col.groups, ∃ B ∈ col.groups,
      ∃ r1 ∈ A.records, ∃ r2 ∈ B.records, ∃ p : Int,
        r1.canCombineWith r2 = p ∧ 0 ≤ p ∧ r = r1.combineWith r2 p.toNat := by
  unfold QuineMcCluskeySolver.combineColumn at h
  set gs := col.getSortedGroups with hgs
  have hmem : ∀ A B : Table1Group, (A, B) ∈ gs.zip gs.tail →
      A ∈ col.groups ∧ B ∈ col.groups := by
    intro A B hAB
    obtain ⟨hA, hB⟩ := List.of_mem_zip hAB
    constructor
    · exact (List.mem_insertionSort _).1 hA
    · exact (List.mem_insertionSort _).1 (List.mem_of_mem_tail hB)
  have main : ∀ (pairs : List (Table1Group × Table1Group)) (acc : Table1Column),
      (∀ AB ∈ pairs, AB.1 ∈ col.groups ∧ AB.2 ∈ col.groups) →
      r ∈ (pairs.foldl (fun acc AB => combinePairInto acc AB.1 AB.2) acc).getAllRecords →
      r ∈ acc.getAllRecords ∨
        ∃ A ∈ col.groups, ∃ B ∈ col.groups,
          ∃ r1 ∈ A.records, ∃ r2 ∈ B.records, ∃ p : Int,
            r1.canCombineWith r2 = p ∧ 0 ≤ p ∧ r = r1.combineWith r2 p.toNat := by
    intro pairs
    induction pairs with
    | nil => intro acc _ h2; exact Or.inl h2
    | cons AB pairs ih =>
      intro acc hsc h2
      rw [List.foldl_cons] at h2
      rcases ih _ (fun x hx => hsc x (List.mem_cons_of_mem AB hx)) h2 with h3 | h3
      · rcases mem_combinePairInto AB.1 AB.2 r acc h3 with h4 | ⟨r1, h5, r2, h6, p, h7⟩
        · exact Or.inl h4
        · obtain ⟨hA, hB⟩ := hsc AB (List.mem_cons_self AB pairs)
          exact Or.inr ⟨AB.1, hA, AB.2, hB, r1, h5, r2, h6, p, h7⟩
      · exact Or.inr h3
  rcases main (gs.zip gs.tail) { groups := [] } (fun AB hAB => hmem AB.1 AB.2 hAB) h with
    h1 | h1
  · exact absurd h1 (by simp [mem_getAllRecords])
  · exact h1

theorem foldl_fixed {α β : Type} (f : β → α → β) (l : List α)
    (h : ∀ (acc : β) (a : α), a ∈ l → f acc a = acc) : ∀ acc : β, l.foldl f acc = acc := by
  induction l with
  | nil => intro acc; rfl
  | cons x xs ih =>
    intro acc
    rw [List.foldl_cons, h acc x (List.mem_cons_self x xs)]
    exact ih (fun acc a ha => h acc a (List.mem_cons_of_mem x ha)) acc

theorem filter_set_dc (l : List ELogicState) :
    ∀ (p : Nat) (x : ELogicState), l[p]? = some x → ¬ x = ELogicState.DontCare →
    ((l.set p ELogicState.DontCare).filter (fun b => decide (b = ELogicState.DontCare))).length =
      (l.filter (fun b => decide (b = ELogicState.DontCare))).length + 1 := by
  induction l with
  | nil => intro p x hx _; simp at hx
  | cons a as ih =>
    intro p x hx hxd
    cases p with
    | zero =>
      have hax : a = x := by simpa using hx
      subst hax
      simp [List.filter_cons, hxd]
    | succ n =>
      have hx' : as[n]? = some x := by simpa using hx
      rw [List.set_cons_succ]
      by_cases ha : a = ELogicState.DontCare
      · simp only [List.filter_cons, ha]
        simpa using ih n x hx' hxd
      · simp only [List.filter_cons]
        have : (decide (a = ELogicState.DontCare)) = false := by simpa using ha
        rw [this]
        simpa using ih n x hx' hxd

theorem all_of_filter_length (l : List ELogicState) (p : ELogicState → Bool)
    (h : (l.filter p).length = l.length) : ∀ a ∈ l, p a = true := by
  induction l with
  | nil => simp
  | cons x xs ih =>
    by_cases hx : p x = true
    · intro a ha
      rcases List.mem_cons.1 ha with h1 | h1
      · rw [h1]; exact hx
      · refine ih ?_ a h1
        rw [List.filter_cons, if_pos hx] at h
        simpa using h
    · exfalso
      rw [List.filter_cons, if_neg hx] at h
      have hle := List.length_filter_le p xs
      simp at h
      omega

theorem canCombineAux_self (as : List ELogicState) :
    ∀ i : Nat, Table1Record.canCombineAux as as i none = -1 := by
  induction as with
  | nil => intro i; rfl
  | cons a as ih =>
    intro i
    rw [canCombineAux_cons_cons, if_pos rfl]
    exact ih (i + 1)

/-- Two records whose bit patterns are entirely DontCare cannot combine. -/
theorem canCombineWith_allDC (a b : Table1Record)
    (ha : ∀ x ∈ a.bits, x = ELogicState.DontCare)
    (hb : ∀ x ∈ b.bits, x = ELogicState.DontCare) :
    a.canCombineWith b = -1 := by
  unfold Table1Record.canCombineWith
  by_cases hlen : a.bits.length = b.bits.length
  · rw [if_pos hlen]
    have hab : a.bits = b.bits := by
      have h1 : a.bits = List.replicate a.bits.length ELogicState.DontCare :=
        List.eq_replicate_of_mem ha
      have h2 : b.bits = List.replicate b.bits.length ELogicState.DontCare :=
        List.eq_replicate_of_mem hb
      rw [h1, h2, hlen]
    rw [hab]
    exact canCombineAux_self b.bits 0
  · rw [if_neg hlen]

/-- One combination pass on a column of `v`-bit records with `k`
DontCares each yields only `v`-bit records with `k + 1` DontCares. -/
theorem columnShape_combineColumn (v k : Nat) (col : Table1Column)
    (h : ColumnShape v k col) :
    ColumnShape v (k + 1) (QuineMcCluskeySolver.combineColumn col) := by
  intro r hr
  obtain ⟨A, hA, B, hB, r1, hr1, r2, hr2, p, hcomb, hp, hreq⟩ := mem_combineColumn col r hr
  have hshape1 := h r1 ((mem_getAllRecords col r1).2 ⟨A, hA, hr1⟩)
  obtain ⟨-, hlt, x, y, hx, hy, -, hxd, -⟩ := canCombineWith_nonneg r1 r2 p hcomb hp
  subst hreq
  constructor
  · unfold Table1Record.combineWith
    simpa [List.length_set] using hshape1.1
  · unfold Table1Record.combineWith dcCount
    simp only
    rw [filter_set_dc r1.bits p.toNat x hx hxd]
    unfold dcCount at hshape1
    rw [hshape1.2]

/-- A column in which every record is entirely DontCare produces an
empty next column. -/
theorem combineColumn_allDC (col : Table1Column)
    (h : ∀ r ∈ col.getAllRecords, ∀ x ∈ r.bits, x = ELogicState.DontCare) :
    QuineMcCluskeySolver.combineColumn col = { groups := [] } := by
  unfold QuineMcCluskeySolver.combineColumn
  apply foldl_fixed
  intro acc AB hAB
  obtain ⟨hA, hB⟩ := List.of_mem_zip hAB
  have hA' : AB.1 ∈ col.groups := (List.mem_insertionSort _).1 hA
  have hB' : AB.2 ∈ col.groups := (List.mem_insertionSort _).1 (List.mem_of_mem_tail hB)
  unfold combinePairInto
  apply foldl_fixed
  intro acc2 r1 hr1
  apply foldl_fixed
  intro acc3 r2 hr2
  have hc : r1.canCombineWith r2 = -1 :=
    canCombineWith_allDC r1 r2
      (h r1 ((mem_getAllRecords col r1).2 ⟨AB.1, hA', hr1⟩))
      (h r2 ((mem_getAllRecords col r2).2 ⟨AB.2, hB', hr2⟩))
  rw [hc]
  norm_num

theorem columnShape_initial (minterms dontcares : List Int) (v : Nat) :
    ColumnShape v 0 (QuineMcCluskeySolver.initialColumn minterms dontcares v) := by
  have main : ∀ (terms : List Int) (acc : Table1Column), ColumnShape v 0 acc →
      ColumnShape v 0 (terms.foldl
        (fun col term => col.addRecord (Table1Record.fromMinterm term v)) acc) := by
    intro terms
    induction terms with
    | nil => intro acc hacc; exact hacc
    | cons t ts ih =>
      intro acc hacc
      rw [List.foldl_cons]
      apply ih
      intro r hr
      rcases mem_addRecord _ _ _ hr with h1 | h1
      · exact hacc r h1
      · subst h1
        constructor
        · simp [Table1Record.fromMinterm]
        · unfold dcCount Table1Record.fromMinterm
          simp only
          rw [List.length_eq_zero.2]
          rw [List.filter_eq_nil_iff]
          intro b hb
          simp only [List.mem_map] at hb
          obtain ⟨j, -, hj⟩ := hb
          by_cases hbit : bitAt t (v - 1 - j) = 1
          · rw [if_pos hbit] at hj
            simp [← hj]
          · rw [if_neg hbit] at hj
            simp [← hj]
  apply main
  intro r hr
  exact absurd hr (by simp [mem_getAllRecords])

/-- Helper form of the generation bound, shared by later developments. -/
theorem iterate_combineColumn_empty (minterms dontcares : List Int)
    (numVariables : Nat) :
    (QuineMcCluskeySolver.combineColumn^[numVariables + 1]
      (QuineMcCluskeySolver.initialColumn minterms dontcares numVariables)).isEmpty = true := by
  have hshape : ∀ k : Nat, ColumnShape numVariables k
      (QuineMcCluskeySolver.combineColumn^[k]
        (QuineMcCluskeySolver.initialColumn minterms dontcares numVariables)) := by
    intro k
    induction k with
    | zero => exact columnShape_initial minterms dontcares numVariables
    | succ k ih =>
      rw [Function.iterate_succ_apply']
      exact columnShape_combineColumn numVariables k _ ih
  rw [Function.iterate_succ_apply']
  rw [combineColumn_allDC _ ?_]
  · rfl
  · intro r hr x hx
    obtain ⟨hlen, hcount⟩ := hshape numVariables r hr
    have hall := all_of_filter_length r.bits (fun b => decide (b = ELogicState.DontCare))
      (by unfold dcCount at hcount; rw [hcount, hlen])
    simpa using hall x hx

/-- Claim C5: for every input, the generation after `numVariables + 1`
combination passes is empty, so the `while (!currentColumn.isEmpty())`
loop of `findPrimeImplicants` terminates after at most
`numVariables + 1` generations, even though the implementation uses an
unbounded while loop. -/
theorem generations_empty_after_numVariables (minterms dontcares : List Int)
    (numVariables : Nat) :
    (QuineMcCluskeySolver.combineColumn^[numVariables + 1]
      (QuineMcCluskeySolver.initialColumn minterms dontcares numVariables)).isEmpty = true :=
  iterate_combineColumn_empty minterms dontcares numVariables


/-! ## Prime implicant coverage: every input term survives into some
prime implicant (machinery for claims C1 and C4) -/

/-- The column holds a record carrying the given minterm-set key. -/
def hasKeyRecord (col : Table1Column) (k : List Int) : Prop :=
  ∃ r ∈ col.getAllRecords, r.getKey = k

theorem foldl_mono_pred {α β : Type} (f : β → α → β) (P : β → Prop)
    (hstep : ∀ (acc : β) (a : α), P acc → P (f acc a)) :
    ∀ (l : List α) (acc : β), P acc → P (l.foldl f acc) := by
  intro l
  induction l with
  | nil => intro acc h; exact h
  | cons x xs ih => intro acc h; exact ih (f acc x) (hstep acc x h)

theorem addRecord_eq (col : Table1Column) (rec : Table1Record) :
    col.addRecord rec =
      if col.groups.any (fun g => decide (g.onesCount = rec.countOnes)) then
        { groups := col.groups.map (fun g =>
            if g.onesCount = rec.countOnes then
              (if g.containsRecord rec then g else g.addRecord rec) else g) }
      else
        { groups := col.groups ++ [{ onesCount := rec.countOnes, records := [rec] }] } :=
  rfl

theorem mem_addRecord_mono (col : Table1Column) (rec r : Table1Record)
    (h : r ∈ col.getAllRecords) : r ∈ (col.addRecord rec).getAllRecords := by
  rw [mem_getAllRecords] at h
  obtain ⟨g, hg, hr⟩ := h
  rw [mem_getAllRecords, addRecord_eq]
  by_cases hex : col.groups.any (fun g => decide (g.onesCount = rec.countOnes))
  · rw [if_pos hex]
    refine ⟨if g.onesCount = rec.countOnes then
      (if g.containsRecord rec then g else g.addRecord rec) else g, List.mem_map_of_mem _ hg, ?_⟩
    by_cases hk : g.onesCount = rec.countOnes
    · rw [if_pos hk]
      by_cases hc : g.containsRecord rec
      · rw [if_pos hc]; exact hr
      · rw [if_neg hc]
        exact List.mem_append.2 (Or.inl hr)
    · rw [if_neg hk]; exact hr
  · rw [if_neg hex]
    exact ⟨g, List.mem_append.2 (Or.inl hg), hr⟩

theorem hasKey_addRecord_mono (col : Table1Column) (rec : Table1Record) (k : List Int)
    (h : hasKeyRecord col k) : hasKeyRecord (col.addRecord rec) k := by
  obtain ⟨r, hr, hk⟩ := h
  exact ⟨r, mem_addRecord_mono col rec r hr, hk⟩

theorem hasKey_addRecord_self (col : Table1Column) (rec : Table1Record) :
    hasKeyRecord (col.addRecord rec) rec.getKey := by
  by_cases hex : col.groups.any (fun g => decide (g.onesCount = rec.countOnes))
  · obtain ⟨g0, hg0, hgk⟩ := List.any_eq_true.1 hex
    have hgk2 : g0.onesCount = rec.countOnes := by simpa using hgk
    by_cases hc : g0.containsRecord rec
    · obtain ⟨r0, hr0, hrk⟩ := List.any_eq_true.1 hc
      have hrk2 : r0.getKey = rec.getKey := by simpa using hrk
      exact hasKey_addRecord_mono col rec rec.getKey
        ⟨r0, (mem_getAllRecords col r0).2 ⟨g0, hg0, hr0⟩, hrk2⟩
    · refine ⟨rec, ?_, rfl⟩
      rw [mem_getAllRecords, addRecord_eq, if_pos hex]
      refine ⟨g0.addRecord rec, ?_, ?_⟩
      · have heq : (if g0.onesCount = rec.countOnes then
            (if g0.containsRecord rec then g0 else g0.addRecord rec) else g0) =
            g0.addRecord rec := by rw [if_pos hgk2, if_neg hc]
        exact heq ▸ List.mem_map_of_mem _ hg0
      · unfold Table1Group.addRecord
        simp
  · refine ⟨rec, ?_, rfl⟩
    rw [mem_getAllRecords, addRecord_eq, if_neg hex]
    exact ⟨{ onesCount := rec.countOnes, records := [rec] }, by simp, by simp⟩

theorem hasKey_innerStep_mono (r1 : Table1Record) (k : List Int) :
    ∀ (acc : Table1Column) (x : Table1Record), hasKeyRecord acc k →
    hasKeyRecord (if 0 ≤ r1.canCombineWith x then
        acc.addRecord (r1.combineWith x (r1.canCombineWith x).toNat)
      else acc) k := by
  intro acc x h
  by_cases hx : 0 ≤ r1.canCombineWith x
  · rw [if_pos hx]; exact hasKey_addRecord_mono _ _ _ h
  · rw [if_neg hx]; exact h

theorem hasKey_innerFold_mono (r1 : Table1Record) (Bs : List Table1Record) (k : List Int)
    (acc : Table1Column) (h : hasKeyRecord acc k) :
    hasKeyRecord (Bs.foldl (fun acc2 x =>
      if 0 ≤ r1.canCombineWith x then
        acc2.addRecord (r1.combineWith x (r1.canCombineWith x).toNat)
      else acc2) acc) k :=
  foldl_mono_pred _ (fun c => hasKeyRecord c k) (hasKey_innerStep_mono r1 k) Bs acc h

theorem hasKey_combinePairInto_mono (next : Table1Column) (A B : Table1Group) (k : List Int)
    (h : hasKeyRecord next k) : hasKeyRecord (combinePairInto next A B) k := by
  unfold combinePairInto
  exact foldl_mono_pred _ (fun c => hasKeyRecord c k)
    (fun acc a hacc => hasKey_innerFold_mono a B.records k acc hacc) A.records next h

theorem hasKey_inner_fold (r1 : Table1Record) (Bs : List Table1Record) (r2 : Table1Record)
    (hmem : r2 ∈ Bs) (hcomb : 0 ≤ r1.canCombineWith r2) :
    ∀ acc : Table1Column,
    hasKeyRecord (Bs.foldl (fun acc2 x =>
        if 0 ≤ r1.canCombineWith x then
          acc2.addRecord (r1.combineWith x (r1.canCombineWith x).toNat)
        else acc2) acc)
      (r1.combineWith r2 (r1.canCombineWith r2).toNat).getKey := by
  induction Bs with
  | nil => exact absurd hmem (by simp)
  | cons b Bs ih =>
    intro acc
    rw [List.foldl_cons]
    rcases List.mem_cons.1 hmem with h1 | h1
    · subst h1
      apply hasKey_innerFold_mono
      rw [if_pos hcomb]
      exact hasKey_addRecord_self _ _
    · exact ih h1 _

theorem hasKey_combinePairInto (next : Table1Column) (A B : Table1Group)
    (r1 r2 : Table1Record) (h1 : r1 ∈ A.records) (h2 : r2 ∈ B.records)
    (hcomb : 0 ≤ r1.canCombineWith r2) :
    hasKeyRecord (combinePairInto next A B)
      (r1.combineWith r2 (r1.canCombineWith r2).toNat).getKey := by
  unfold combinePairInto
  have main : ∀ (As : List Table1Record), r1 ∈ As → ∀ acc,
      hasKeyRecord (As.foldl (fun acc x1 =>
        B.records.foldl (fun acc2 x2 =>
          if 0 ≤ x1.canCombineWith x2 then
            acc2.addRecord (x1.combineWith x2 (x1.canCombineWith x2).toNat)
          else acc2) acc) acc)
        (r1.combineWith r2 (r1.canCombineWith r2).toNat).getKey := by
    intro As
    induction As with
    | nil => intro h; exact absurd h (by simp)
    | cons a As ih =>
      intro hmem acc
      rw [List.foldl_cons]
      rcases List.mem_cons.1 hmem with hh | hh
      · subst hh
        apply foldl_mono_pred _
          (fun c => hasKeyRecord c (r1.combineWith r2 (r1.canCombineWith r2).toNat).getKey)
          (fun acc2 x hacc => hasKey_innerFold_mono x B.records _ acc2 hacc) As
        exact hasKey_inner_fold r1 B.records r2 h2 hcomb acc
      · exact ih hh _
  exact main A.records h1 next

theorem hasKey_combineColumn (col : Table1Column) (A B : Table1Group)
    (r1 r2 : Table1Record)
    (hAB : (A, B) ∈ (col.getSortedGroups).zip (col.getSortedGroups).tail)
    (h1 : r1 ∈ A.records) (h2 : r2 ∈ B.records)
    (hcomb : 0 ≤ r1.canCombineWith r2) :
    hasKeyRecord (QuineMcCluskeySolver.combineColumn col)
      (r1.combineWith r2 (r1.canCombineWith r2).toNat).getKey := by
  unfold QuineMcCluskeySolver.combineColumn
  have main : ∀ (pairs : List (Table1Group × Table1Group)), (A, B) ∈ pairs → ∀ acc,
      hasKeyRecord (pairs.foldl (fun acc AB => combinePairInto acc AB.1 AB.2) acc)
        (r1.combineWith r2 (r1.canCombineWith r2).toNat).getKey := by
    intro pairs
    induction pairs with
    | nil => intro h; exact absurd h (by simp)
    | cons AB pairs ih =>
      intro hmem acc
      rw [List.foldl_cons]
      rcases List.mem_cons.1 hmem with hh | hh
      · apply foldl_mono_pred _
          (fun c => hasKeyRecord c (r1.combineWith r2 (r1.canCombineWith r2).toNat).getKey)
          (fun acc2 x hacc => hasKey_combinePairInto_mono acc2 x.1 x.2 _ hacc) pairs
        have hABeq : AB = (A, B) := hh.symm
        rw [hABeq]
        exact hasKey_combinePairInto acc A B r1 r2 h1 h2 hcomb
      · exact ih hh _
  exact main _ hAB _

theorem mem_getUnusedRecords (col : Table1Column) (r : Table1Record) :
    r ∈ col.getUnusedRecords ↔ ∃ g ∈ col.groups, r ∈ g.records ∧ r.isUsed = false := by
  unfold Table1Column.getUnusedRecords
  simp only [List.mem_flatten, List.mem_map]
  constructor
  · rintro ⟨l, ⟨g, hg, rfl⟩, hrl⟩
    obtain ⟨hrg, hflag⟩ := List.mem_filter.1 hrl
    exact ⟨g, hg, hrg, by simpa using hflag⟩
  · rintro ⟨g, hg, hrg, hflag⟩
    refine ⟨g.records.filter (fun r => !r.isUsed), ⟨g, hg, rfl⟩, ?_⟩
    exact List.mem_filter.2 ⟨hrg, by simp [hflag]⟩

theorem mem_markUsed_unused (col : Table1Column) (g : Table1Group) (r : Table1Record)
    (hg : g ∈ col.groups) (hr : r ∈ g.records) (hfresh : r.isUsed = false)
    (hpred : recordUsedInPass col.getSortedGroups g r = false) :
    r ∈ (markUsedColumn col).getUnusedRecords := by
  rw [mem_getUnusedRecords]
  unfold markUsedColumn
  refine ⟨{ g with records := g.records.map (fun r =>
      if recordUsedInPass col.getSortedGroups g r then { r with isUsed := true } else r) },
    List.mem_map_of_mem _ hg, ?_, hfresh⟩
  have : (if recordUsedInPass col.getSortedGroups g r then { r with isUsed := true } else r) =
      r := by rw [hpred]; simp
  exact this ▸ List.mem_map_of_mem _ hr

theorem recordUsedInPass_elim (sorted : List Table1Group) (g : Table1Group) (r : Table1Record)
    (h : recordUsedInPass sorted g r = true) :
    ∃ AB ∈ sorted.zip sorted.tail,
      (AB.1 = g ∧ ∃ r2 ∈ AB.2.records, 0 ≤ r.canCombineWith r2) ∨
      (AB.2 = g ∧ ∃ r1 ∈ AB.1.records, 0 ≤ r1.canCombineWith r) := by
  unfold recordUsedInPass at h
  obtain ⟨AB, hAB, hcond⟩ := List.any_eq_true.1 h
  simp only [Bool.or_eq_true, Bool.and_eq_true, List.any_eq_true, decide_eq_true_eq] at hcond
  refine ⟨AB, hAB, ?_⟩
  rcases hcond with ⟨hA, r2, hr2, hcomb⟩ | ⟨hB, r1, hr1, hcomb⟩
  · exact Or.inl ⟨hA, r2, hr2, hcomb⟩
  · exact Or.inr ⟨hB, r1, hr1, hcomb⟩

theorem mem_combineWith_minterms (r1 r2 : Table1Record) (p : Nat) (x : Int) :
    x ∈ (r1.combineWith r2 p).minterms ↔ x ∈ r1.minterms ∨ x ∈ r2.minterms := by
  unfold Table1Record.combineWith
  simp only
  rw [sortInt_mem, mem_dedupFirst, List.mem_append]

theorem fresh_combineColumn (col : Table1Column) (r : Table1Record)
    (h : r ∈ (QuineMcCluskeySolver.combineColumn col).getAllRecords) : r.isUsed = false := by
  obtain ⟨A, hA, B, hB, r1, hr1, r2, hr2, p, hp1, hp2, hreq⟩ := mem_combineColumn col r h
  subst hreq
  rfl

theorem mem_markUsedColumn (col : Table1Column) (q : Table1Record)
    (h : q ∈ (markUsedColumn col).getAllRecords) :
    ∃ r ∈ col.getAllRecords, q.minterms = r.minterms ∧ q.bits = r.bits := by
  rw [mem_getAllRecords] at h
  obtain ⟨g', hg', hq⟩ := h
  unfold markUsedColumn at hg'
  simp only [List.mem_map] at hg'
  obtain ⟨g, hg, rfl⟩ := hg'
  simp only [List.mem_map] at hq
  obtain ⟨r, hr, rfl⟩ := hq
  refine ⟨r, (mem_getAllRecords col r).2 ⟨g, hg, hr⟩, ?_⟩
  by_cases hp : recordUsedInPass col.getSortedGroups g r
  · rw [if_pos hp]; exact ⟨rfl, rfl⟩
  · rw [if_neg hp]; exact ⟨rfl, rfl⟩

theorem dedup_aux_subset (l : List Table1Record) :
    ∀ (seen : List (List Int)) (q : Table1Record),
    q ∈ QuineMcCluskeySolver.deduplicatePrimeImplicantsAux seen l → q ∈ l := by
  induction l with
  | nil => intro seen q h; exact absurd h (by simp [QuineMcCluskeySolver.deduplicatePrimeImplicantsAux])
  | cons r rest ih =>
    intro seen q h
    unfold QuineMcCluskeySolver.deduplicatePrimeImplicantsAux at h
    by_cases hk : r.getKey ∈ seen
    · rw [if_pos hk] at h
      exact List.mem_cons_of_mem r (ih seen q h)
    · rw [if_neg hk] at h
      rcases List.mem_cons.1 h with h1 | h1
      · exact h1 ▸ List.mem_cons_self r rest
      · exact List.mem_cons_of_mem r (ih _ q h1)

theorem dedup_aux_key (l : List Table1Record) :
    ∀ (seen : List (List Int)) (r : Table1Record), r ∈ l → r.getKey ∉ seen →
    ∃ q ∈ QuineMcCluskeySolver.deduplicatePrimeImplicantsAux seen l, q.getKey = r.getKey := by
  induction l with
  | nil => intro seen r h; exact absurd h (by simp)
  | cons x rest ih =>
    intro seen r hmem hseen
    unfold QuineMcCluskeySolver.deduplicatePrimeImplicantsAux
    by_cases hk : x.getKey ∈ seen
    · rw [if_pos hk]
      rcases List.mem_cons.1 hmem with h1 | h1
      · exact absurd (show r.getKey ∈ seen by rw [h1]; exact hk) hseen
      · exact ih seen r h1 hseen
    · rw [if_neg hk]
      by_cases hx : r.getKey = x.getKey
      · exact ⟨x, List.mem_cons_self _ _, hx.symm⟩
      · rcases List.mem_cons.1 hmem with h1 | h1
        · exact absurd (congrArg Table1Record.getKey h1) hx
        · obtain ⟨q, hq, hqk⟩ := ih (x.getKey :: seen) r h1
            (by simp [hseen, hx])
          exact ⟨q, List.mem_cons_of_mem x hq, hqk⟩

theorem combineColumn_isEmpty_of_isEmpty (col : Table1Column)
    (h : col.isEmpty = true) : (QuineMcCluskeySolver.combineColumn col).isEmpty = true := by
  have hg : col.groups = [] := by
    simpa [Table1Column.isEmpty, List.isEmpty_iff] using h
  have hs : col.getSortedGroups = [] := by
    unfold Table1Column.getSortedGroups
    rw [hg]
    rfl
  unfold QuineMcCluskeySolver.combineColumn
  rw [hs]
  rfl

theorem mem_initialColumn (minterms dontcares : List Int) (v : Nat) (r : Table1Record)
    (h : r ∈ (QuineMcCluskeySolver.initialColumn minterms dontcares v).getAllRecords) :
    ∃ t ∈ dedupFirst (minterms ++ dontcares), r = Table1Record.fromMinterm t v := by
  unfold QuineMcCluskeySolver.initialColumn at h
  have main : ∀ (terms : List Int) (acc : Table1Column),
      r ∈ (terms.foldl (fun col term => col.addRecord (Table1Record.fromMinterm term v))
        acc).getAllRecords →
      r ∈ acc.getAllRecords ∨ ∃ t ∈ terms, r = Table1Record.fromMinterm t v := by
    intro terms
    induction terms with
    | nil => intro acc h2; exact Or.inl h2
    | cons t ts ih =>
      intro acc h2
      rw [List.foldl_cons] at h2
      rcases ih _ h2 with h3 | ⟨t', ht', hr'⟩
      · rcases mem_addRecord _ _ _ h3 with h4 | h4
        · exact Or.inl h4
        · exact Or.inr ⟨t, List.mem_cons_self t ts, h4⟩
      · exact Or.inr ⟨t', List.mem_cons_of_mem t ht', hr'⟩
  rcases main _ _ h with h1 | h1
  · exact absurd h1 (by simp [mem_getAllRecords])
  · exact h1

theorem fresh_initialColumn (minterms dontcares : List Int) (v : Nat) :
    ∀ r ∈ (QuineMcCluskeySolver.initialColumn minterms dontcares v).getAllRecords,
      r.isUsed = false := by
  intro r hr
  obtain ⟨t, -, hr'⟩ := mem_initialColumn minterms dontcares v r hr
  rw [hr']
  rfl

theorem initial_hasKey (minterms dontcares : List Int) (v : Nat) :
    ∀ t ∈ dedupFirst (minterms ++ dontcares),
      hasKeyRecord (QuineMcCluskeySolver.initialColumn minterms dontcares v) [t] := by
  unfold QuineMcCluskeySolver.initialColumn
  have main : ∀ (terms : List Int) (t : Int), t ∈ terms → ∀ acc,
      hasKeyRecord (terms.foldl
        (fun col term => col.addRecord (Table1Record.fromMinterm term v)) acc) [t] := by
    intro terms
    induction terms with
    | nil => intro t h; exact absurd h (by simp)
    | cons u ts ih =>
      intro t hmem acc
      rw [List.foldl_cons]
      rcases List.mem_cons.1 hmem with h1 | h1
      · subst h1
        apply foldl_mono_pred _ (fun c => hasKeyRecord c [t])
          (fun acc2 x hacc => hasKey_addRecord_mono acc2 _ [t] hacc) ts
        exact hasKey_addRecord_self acc (Table1Record.fromMinterm t v)
      · exact ih t h1 _
  intro t ht
  exact main _ t ht _

theorem findPrimeImplicantsGo_eq_of_empty (fuel : Nat) (col : Table1Column)
    (acc : List Table1Record) (h : col.isEmpty = true) :
    QuineMcCluskeySolver.findPrimeImplicantsGo (fuel + 1) col acc = acc := by
  unfold QuineMcCluskeySolver.findPrimeImplicantsGo
  rw [if_pos h]

theorem findPrimeImplicantsGo_eq_of_nonempty (fuel : Nat) (col : Table1Column)
    (acc : List Table1Record) (h : ¬ col.isEmpty = true) :
    QuineMcCluskeySolver.findPrimeImplicantsGo (fuel + 1) col acc =
      QuineMcCluskeySolver.findPrimeImplicantsGo fuel
        (QuineMcCluskeySolver.combineColumn col)
        (acc ++ (markUsedColumn col).getUnusedRecords) := by
  conv_lhs => rw [QuineMcCluskeySolver.findPrimeImplicantsGo]
  rw [if_neg h]

theorem allRecords_nil_of_isEmpty (col : Table1Column) (h : col.isEmpty = true) :
    col.getAllRecords = [] := by
  have hg : col.groups = [] := by
    simpa [Table1Column.isEmpty, List.isEmpty_iff] using h
  unfold Table1Column.getAllRecords
  rw [hg]
  rfl

/-- Core lemma: with enough fuel to empty the column, the collected
prime implicant list retains the accumulator and contains, for every
minterm of every record of the column, some record covering it. -/
theorem pi_go_coverage :
    ∀ (fuel : Nat) (col : Table1Column) (acc : List Table1Record),
    (QuineMcCluskeySolver.combineColumn^[fuel] col).isEmpty = true →
    (∀ r ∈ col.getAllRecords, r.isUsed = false) →
    (∀ a ∈ acc, a ∈ QuineMcCluskeySolver.findPrimeImplicantsGo fuel col acc) ∧
    (∀ r ∈ col.getAllRecords, ∀ m ∈ r.minterms,
      ∃ q ∈ QuineMcCluskeySolver.findPrimeImplicantsGo fuel col acc, m ∈ q.minterms) := by
  intro fuel
  induction fuel with
  | zero =>
    intro col acc hempty hfresh
    constructor
    · intro a ha; exact ha
    · intro r hr
      rw [allRecords_nil_of_isEmpty col hempty] at hr
      exact absurd hr (by simp)
  | succ fuel ih =>
    intro col acc hempty hfresh
    by_cases hc : col.isEmpty = true
    · rw [findPrimeImplicantsGo_eq_of_empty fuel col acc hc]
      constructor
      · intro a ha; exact ha
      · intro r hr
        rw [allRecords_nil_of_isEmpty col hc] at hr
        exact absurd hr (by simp)
    · rw [findPrimeImplicantsGo_eq_of_nonempty fuel col acc hc]
      have hemptynext :
          (QuineMcCluskeySolver.combineColumn^[fuel]
            (QuineMcCluskeySolver.combineColumn col)).isEmpty = true := by
        rw [← Function.iterate_succ_apply]
        exact hempty
      have hfreshnext : ∀ r ∈ (QuineMcCluskeySolver.combineColumn col).getAllRecords,
          r.isUsed = false := fun r hr => fresh_combineColumn col r hr
      obtain ⟨ihacc, ihcov⟩ := ih (QuineMcCluskeySolver.combineColumn col)
        (acc ++ (markUsedColumn col).getUnusedRecords) hemptynext hfreshnext
      refine ⟨fun a ha => ihacc a (List.mem_append.2 (Or.inl ha)), ?_⟩
      intro r hr m hm
      obtain ⟨g, hg, hrg⟩ := (mem_getAllRecords col r).1 hr
      by_cases hpred : recordUsedInPass col.getSortedGroups g r = true
      · obtain ⟨AB, hAB, hcase⟩ := recordUsedInPass_elim _ _ _ hpred
        have hABeta : (AB.1, AB.2) ∈
            (col.getSortedGroups).zip (col.getSortedGroups).tail := by
          simpa using hAB
        rcases hcase with ⟨hA, r2, hr2, hcomb⟩ | ⟨hB, r1, hr1, hcomb⟩
        · have hrA : r ∈ AB.1.records := by rw [hA]; exact hrg
          obtain ⟨q, hq, hqk⟩ :=
            hasKey_combineColumn col AB.1 AB.2 r r2 hABeta hrA hr2 hcomb
          have hqm : q.minterms = (r.combineWith r2 (r.canCombineWith r2).toNat).minterms := hqk
          have hmq : m ∈ q.minterms := by
            rw [hqm, mem_combineWith_minterms]
            exact Or.inl hm
          exact ihcov q hq m hmq
        · have hrB : r ∈ AB.2.records := by rw [hB]; exact hrg
          obtain ⟨q, hq, hqk⟩ :=
            hasKey_combineColumn col AB.1 AB.2 r1 r hABeta hr1 hrB hcomb
          have hqm : q.minterms = (r1.combineWith r (r1.canCombineWith r).toNat).minterms := hqk
          have hmq : m ∈ q.minterms := by
            rw [hqm, mem_combineWith_minterms]
            exact Or.inr hm
          exact ihcov q hq m hmq
      · have hmemu : r ∈ (markUsedColumn col).getUnusedRecords :=
          mem_markUsed_unused col g r hg hrg (hfresh r hr)
            (by simpa using hpred)
        exact ⟨r, ihacc r (List.mem_append.2 (Or.inr hmemu)), hm⟩

/-- Every input term (minterm or dontcare) is covered by some prime
implicant produced by `findPrimeImplicants`. -/
theorem findPrimeImplicants_covers (minterms dontcares : List Int) (v : Nat) :
    ∀ t ∈ minterms ++ dontcares,
      ∃ q ∈ QuineMcCluskeySolver.findPrimeImplicants minterms dontcares v, t ∈ q.minterms := by
  intro t ht
  have ht2 : t ∈ dedupFirst (minterms ++ dontcares) := (mem_dedupFirst _ t).2 ht
  obtain ⟨r, hr, hk⟩ := initial_hasKey minterms dontcares v t ht2
  have hm : t ∈ r.minterms := by
    have : r.minterms = [t] := hk
    rw [this]
    simp
  have hempty : (QuineMcCluskeySolver.combineColumn^[v + 2]
      (QuineMcCluskeySolver.initialColumn minterms dontcares v)).isEmpty = true := by
    have h1 := iterate_combineColumn_empty minterms dontcares v
    have h2 : v + 2 = (v + 1) + 1 := rfl
    rw [h2, Function.iterate_succ_apply']
    exact combineColumn_isEmpty_of_isEmpty _ h1
  obtain ⟨-, hcov⟩ := pi_go_coverage (v + 2)
    (QuineMcCluskeySolver.initialColumn minterms dontcares v) [] hempty
    (fresh_initialColumn minterms dontcares v)
  obtain ⟨q, hq, hqm⟩ := hcov r hr t hm
  obtain ⟨q2, hq2, hk2⟩ := dedup_aux_key _ [] q hq (by simp)
  refine ⟨q2, hq2, ?_⟩
  have : q2.minterms = q.minterms := hk2
  rw [this]
  exact hqm

/-- All minterms carried by the prime implicants come from the input
term set (machinery for claim C1's containment direction). -/
theorem pi_go_bound (T : List Int) :
    ∀ (fuel : Nat) (col : Table1Column) (acc : List Table1Record),
    (∀ r ∈ col.getAllRecords, ∀ m ∈ r.minterms, m ∈ T) →
    (∀ a ∈ acc, ∀ m ∈ a.minterms, m ∈ T) →
    ∀ q ∈ QuineMcCluskeySolver.findPrimeImplicantsGo fuel col acc, ∀ m ∈ q.minterms, m ∈ T := by
  intro fuel
  induction fuel with
  | zero => intro col acc hcol hacc q hq; exact hacc q hq
  | succ fuel ih =>
    intro col acc hcol hacc q hq
    by_cases hc : col.isEmpty = true
    · rw [findPrimeImplicantsGo_eq_of_empty fuel col acc hc] at hq
      exact hacc q hq
    · rw [findPrimeImplicantsGo_eq_of_nonempty fuel col acc hc] at hq
      refine ih (QuineMcCluskeySolver.combineColumn col)
        (acc ++ (markUsedColumn col).getUnusedRecords) ?_ ?_ q hq
      · intro r hr m hm
        obtain ⟨A, hA, B, hB, r1, hr1, r2, hr2, p, hp1, hp2, hreq⟩ :=
          mem_combineColumn col r hr
        subst hreq
        rcases (mem_combineWith_minterms r1 r2 p.toNat m).1 hm with h1 | h1
        · exact hcol r1 ((mem_getAllRecords col r1).2 ⟨A, hA, hr1⟩) m h1
        · exact hcol r2 ((mem_getAllRecords col r2).2 ⟨B, hB, hr2⟩) m h1
      · intro a ha m hm
        rcases List.mem_append.1 ha with h1 | h1
        · exact hacc a h1 m hm
        · obtain ⟨g, hg, hag, -⟩ := (mem_getUnusedRecords _ a).1 h1
          obtain ⟨r0, hr0, hmeq, -⟩ := mem_markUsedColumn col a
            ((mem_getAllRecords _ a).2 ⟨g, hg, hag⟩)
          rw [hmeq] at hm
          exact hcol r0 hr0 m hm

theorem findPrimeImplicants_bound (minterms dontcares : List Int) (v : Nat) :
    ∀ q ∈ QuineMcCluskeySolver.findPrimeImplicants minterms dontcares v,
      ∀ m ∈ q.minterms, m ∈ minterms ++ dontcares := by
  intro q hq m hm
  have hq2 : q ∈ QuineMcCluskeySolver.findPrimeImplicantsGo (v + 2)
      (QuineMcCluskeySolver.initialColumn minterms dontcares v) [] :=
    dedup_aux_subset _ [] q hq
  refine pi_go_bound (minterms ++ dontcares) (v + 2) _ [] ?_ (by simp) q hq2 m hm
  intro r hr m2 hm2
  obtain ⟨t, ht, hrt⟩ := mem_initialColumn minterms dontcares v r hr
  rw [hrt] at hm2
  have : m2 = t := by simpa [Table1Record.fromMinterm] using hm2
  rw [this]
  exact (mem_dedupFirst _ t).1 ht

/-! ## Selection-phase machinery: projections and monotonicity -/

theorem markCovered_rows (t : Table2) (row : Table2Row) :
    (t.markCovered row).rows = t.rows := by
  unfold Table2.markCovered
  refine foldl_mono_pred _ (fun t2 => t2.rows = t.rows) ?_ _ t rfl
  intro acc m h
  exact h

theorem markCovered_uncovered (t : Table2) (row : Table2Row) :
    (t.markCovered row).uncoveredMinterms =
      t.uncoveredMinterms.filter (fun x => decide (x ∉ row.getCoveredMinterms)) := by
  unfold Table2.markCovered
  have main : ∀ (L : List Int) (t2 : Table2),
      (L.foldl (fun acc m =>
        { acc with
          columns := setFirstCovered acc.columns m
          uncoveredMinterms := acc.uncoveredMinterms.filter (fun x => decide (¬ x = m)) })
        t2).uncoveredMinterms =
      t2.uncoveredMinterms.filter (fun x => decide (x ∉ L)) := by
    intro L
    induction L with
    | nil => intro t2; simp
    | cons m L ih =>
      intro t2
      rw [List.foldl_cons, ih]
      simp only [List.filter_filter]
      apply List.filter_congr
      intro x _
      by_cases hx : x = m
      · simp [hx]
      · simp [hx]
  exact main _ t

theorem setFirstCovered_minterm_map (cols : List Table2Column) (m : Int) :
    (setFirstCovered cols m).map (fun c => c.minterm) = cols.map (fun c => c.minterm) := by
  induction cols with
  | nil => rfl
  | cons c cs ih =>
    unfold setFirstCovered
    by_cases hc : c.minterm = m
    · rw [if_pos hc]; simp
    · rw [if_neg hc]; simp [ih]

theorem markCovered_minterm_map (t : Table2) (row : Table2Row) :
    (t.markCovered row).columns.map (fun c => c.minterm) =
      t.columns.map (fun c => c.minterm) := by
  unfold Table2.markCovered
  refine foldl_mono_pred _
    (fun t2 => t2.columns.map (fun c => c.minterm) = t.columns.map (fun c => c.minterm))
    ?_ _ t rfl
  intro acc m h
  show (setFirstCovered acc.columns m).map (fun c => c.minterm) =
    t.columns.map (fun c => c.minterm)
  rw [setFirstCovered_minterm_map]
  exact h

theorem setFirstCovered_getElem? (cols : List Table2Column) (m : Int) (j : Nat) :
    (setFirstCovered cols m)[j]? = cols[j]? ∨
      ∃ c, cols[j]? = some c ∧ (setFirstCovered cols m)[j]? =
        some { c with isCovered := true } := by
  induction cols generalizing j with
  | nil => exact Or.inl rfl
  | cons c cs ih =>
    unfold setFirstCovered
    by_cases hc : c.minterm = m
    · rw [if_pos hc]
      cases j with
      | zero => exact Or.inr ⟨c, by simp, by simp⟩
      | succ n => exact Or.inl (by simp)
    · rw [if_neg hc]
      cases j with
      | zero => exact Or.inl (by simp)
      | succ n => simpa using ih n

theorem markCovered_covered_mono (t : Table2) (row : Table2Row) (j : Nat)
    (c c2 : Table2Column) (hc : t.columns[j]? = some c)
    (hc2 : (t.markCovered row).columns[j]? = some c2)
    (h : c.isCovered = true) : c2.isCovered = true := by
  unfold Table2.markCovered at hc2
  have main : ∀ (L : List Int) (t2 : Table2) (c c2 : Table2Column),
      t2.columns[j]? = some c → c.isCovered = true →
      (L.foldl (fun acc m =>
        { acc with
          columns := setFirstCovered acc.columns m
          uncoveredMinterms := acc.uncoveredMinterms.filter (fun x => decide (¬ x = m)) })
        t2).columns[j]? = some c2 → c2.isCovered = true := by
    intro L
    induction L with
    | nil =>
      intro t2 c c2 h1 h2 h3
      rw [List.foldl_nil] at h3
      rw [h1] at h3
      cases Option.some.inj h3
      exact h2
    | cons m L ih =>
      intro t2 c c2 h1 h2 h3
      rw [List.foldl_cons] at h3
      rcases setFirstCovered_getElem? t2.columns m j with h4 | ⟨c3, h4, h5⟩
      · refine ih _ c c2 ?_ h2 h3
        simpa [h4] using h1
      · rw [h1] at h4
        cases Option.some.inj h4
        refine ih _ { c with isCovered := true } c2 (by simpa using h5) rfl h3
  exact main _ t c c2 hc h hc2

theorem modifyAt_map_record (rows : List Table2Row) (i : Nat) :
    (modifyAt rows i (fun r => { r with isSelected := true })).map (fun r => r.record) =
      rows.map (fun r => r.record) := by
  induction rows generalizing i with
  | nil => rfl
  | cons r rs ih =>
    cases i with
    | zero => simp [modifyAt]
    | succ n => simp [modifyAt, ih n]

theorem selectRow_rowsRecords (t : Table2) (i : Nat) :
    (t.selectRow i).rows.map (fun r => r.record) = t.rows.map (fun r => r.record) := by
  unfold Table2.selectRow
  cases hrow : t.rows[i]? with
  | none => rfl
  | some row =>
    simp only
    rw [markCovered_rows]
    exact modifyAt_map_record t.rows i

theorem selectRow_minterm_map (t : Table2) (i : Nat) :
    (t.selectRow i).columns.map (fun c => c.minterm) = t.columns.map (fun c => c.minterm) := by
  unfold Table2.selectRow
  cases hrow : t.rows[i]? with
  | none => rfl
  | some row => exact markCovered_minterm_map _ row

theorem selectRow_selected_mono (t : Table2) (i j : Nat) (r r2 : Table2Row)
    (h1 : t.rows[j]? = some r) (h2 : (t.selectRow i).rows[j]? = some r2)
    (h : r.isSelected = true) : r2.isSelected = true := by
  unfold Table2.selectRow at h2
  cases hrow : t.rows[i]? with
  | none =>
    rw [hrow] at h2
    rw [h1] at h2
    cases Option.some.inj h2
    exact h
  | some row =>
    rw [hrow] at h2
    simp only at h2
    rw [markCovered_rows] at h2
    rw [modifyAt_getElem?] at h2
    by_cases hj : j = i
    · rw [if_pos hj, h1] at h2
      cases Option.some.inj h2
      rfl
    · rw [if_neg hj, h1] at h2
      cases Option.some.inj h2
      exact h

theorem selectRow_covered_mono (t : Table2) (i j : Nat) (c c2 : Table2Column)
    (h1 : t.columns[j]? = some c) (h2 : (t.selectRow i).columns[j]? = some c2)
    (h : c.isCovered = true) : c2.isCovered = true := by
  unfold Table2.selectRow at h2
  cases hrow : t.rows[i]? with
  | none =>
    rw [hrow] at h2
    rw [h1] at h2
    cases Option.some.inj h2
    exact h
  | some row =>
    rw [hrow] at h2
    exact markCovered_covered_mono _ row j c c2 (by simpa using h1) h2 h

theorem selectRow_uncovered (t : Table2) (i : Nat) (row : Table2Row)
    (hrow : t.rows[i]? = some row) :
    (t.selectRow i).uncoveredMinterms =
      t.uncoveredMinterms.filter (fun x => decide (x ∉ row.getCoveredMinterms)) := by
  unfold Table2.selectRow
  rw [hrow]
  simp only
  rw [markCovered_uncovered]

theorem selectRow_uncovered_none (t : Table2) (i : Nat)
    (hrow : t.rows[i]? = none) : t.selectRow i = t := by
  unfold Table2.selectRow
  rw [hrow]

theorem modifyAt_mem {α : Type} (l : List α) (i : Nat) (f : α → α) (a : α) (h : a ∈ l) :
    a ∈ modifyAt l i f ∨ f a ∈ modifyAt l i f := by
  induction l generalizing i with
  | nil => exact absurd h (by simp)
  | cons x xs ih =>
    cases i with
    | zero =>
      rcases List.mem_cons.1 h with h1 | h1
      · exact Or.inr (by rw [h1]; exact List.mem_cons_self _ _)
      · exact Or.inl (List.mem_cons_of_mem _ h1)
    | succ n =>
      rcases List.mem_cons.1 h with h1 | h1
      · exact Or.inl (by rw [h1]; exact List.mem_cons_self _ _)
      · rcases ih n h1 with h2 | h2
        · exact Or.inl (List.mem_cons_of_mem _ h2)
        · exact Or.inr (List.mem_cons_of_mem _ h2)

theorem mem_modifyAt_elim {α : Type} (l : List α) (i : Nat) (f : α → α) (a : α)
    (h : a ∈ modifyAt l i f) : a ∈ l ∨ ∃ r, l[i]? = some r ∧ a = f r := by
  induction l generalizing i with
  | nil => exact absurd h (by simp [modifyAt])
  | cons x xs ih =>
    cases i with
    | zero =>
      rcases List.mem_cons.1 h with h1 | h1
      · exact Or.inr ⟨x, by simp, h1⟩
      · exact Or.inl (List.mem_cons_of_mem _ h1)
    | succ n =>
      rcases List.mem_cons.1 h with h1 | h1
      · exact Or.inl (by rw [h1]; exact List.mem_cons_self _ _)
      · rcases ih n h1 with h2 | ⟨r, hr1, hr2⟩
        · exact Or.inl (List.mem_cons_of_mem _ h2)
        · exact Or.inr ⟨r, by simpa using hr1, hr2⟩

/-- Invariants of the covering table relative to the requested minterm
list, maintained by every row selection: each requested minterm is
uncovered or carried by a selected row; minterms of selected rows are
never uncovered; every uncovered minterm is carried by some row. -/
def SelInvar (ms : List Int) (t : Table2) : Prop :=
  (∀ m ∈ ms, m ∈ t.uncoveredMinterms ∨
    ∃ row ∈ t.rows, row.isSelected = true ∧ m ∈ row.record.minterms) ∧
  (∀ row ∈ t.rows, row.isSelected = true → ∀ m ∈ row.record.minterms,
    m ∉ t.uncoveredMinterms) ∧
  (∀ m ∈ t.uncoveredMinterms, ∃ row ∈ t.rows, m ∈ row.record.minterms)

theorem selInvar_selectRow (ms : List Int) (t : Table2) (i : Nat)
    (h : SelInvar ms t) : SelInvar ms (t.selectRow i) := by
  obtain ⟨h1, h2, h3⟩ := h
  cases hrow : t.rows[i]? with
  | none => rw [selectRow_uncovered_none t i hrow]; exact ⟨h1, h2, h3⟩
  | some row =>
    have huncov := selectRow_uncovered t i row hrow
    have hrows : (t.selectRow i).rows = modifyAt t.rows i
        (fun r => { r with isSelected := true }) := by
      unfold Table2.selectRow
      rw [hrow]
      simp only
      rw [markCovered_rows]
    refine ⟨?_, ?_, ?_⟩
    · intro m hm
      rcases h1 m hm with hu | ⟨r, hr, hsel, hmr⟩
      · by_cases hin : m ∈ (t.selectRow i).uncoveredMinterms
        · exact Or.inl hin
        · rw [huncov] at hin
          have hmc : m ∈ row.getCoveredMinterms := by
            by_contra hmc
            exact hin (List.mem_filter.2 ⟨hu, by simpa using hmc⟩)
          have hmr : m ∈ row.record.minterms := by
            unfold Table2Row.getCoveredMinterms at hmc
            exact (mem_dedupFirst _ m).1 hmc
          refine Or.inr ⟨{ row with isSelected := true }, ?_, rfl, hmr⟩
          rw [hrows]
          rcases modifyAt_mem t.rows i (fun r => { r with isSelected := true }) row
            (List.getElem?_mem hrow) with hx | hx
          · -- row itself still present (possible when another copy sits at i);
            -- the modified copy is obtained directly from the index instead
            have : (modifyAt t.rows i (fun r => { r with isSelected := true }))[i]? =
                some { row with isSelected := true } := by
              rw [modifyAt_getElem?, if_pos rfl, hrow]
              rfl
            exact List.getElem?_mem this
          · exact hx
      · refine Or.inr ?_
        rcases modifyAt_mem t.rows i (fun r => { r with isSelected := true }) r hr with
          hx | hx
        · exact ⟨r, by rw [hrows]; exact hx, hsel, hmr⟩
        · exact ⟨{ r with isSelected := true }, by rw [hrows]; exact hx, rfl, hmr⟩
    · intro r' hr' hsel' m hmr' hmu
      rw [huncov] at hmu
      obtain ⟨hmu0, hmfl⟩ := List.mem_filter.1 hmu
      rw [hrows] at hr'
      rcases mem_modifyAt_elim _ _ _ _ hr' with hx | ⟨r0, hr0, rfl⟩
      · exact h2 r' hx hsel' m hmr' hmu0
      · rw [hrow] at hr0
        cases Option.some.inj hr0
        have : m ∈ row.getCoveredMinterms := by
          unfold Table2Row.getCoveredMinterms
          exact (mem_dedupFirst _ m).2 hmr'
        simp [this] at hmfl
    · intro m hmu
      rw [huncov] at hmu
      obtain ⟨hmu0, -⟩ := List.mem_filter.1 hmu
      obtain ⟨r, hr, hmr⟩ := h3 m hmu0
      rcases modifyAt_mem t.rows i (fun r => { r with isSelected := true }) r hr with
        hx | hx
      · exact ⟨r, by rw [hrows]; exact hx, hmr⟩
      · exact ⟨{ r with isSelected := true }, by rw [hrows]; exact hx, hmr⟩

theorem findEssentialGo_succ (n idx : Nat) (t : Table2) (ess : List Nat) :
    Table2.findEssentialGo (n + 1) idx t ess =
      match t.columns[idx]? with
      | none => (t, ess)
      | some column =>
        if column.isCovered then Table2.findEssentialGo n (idx + 1) t ess
        else
          match t.coveringRowIdxs column.minterm with
          | [i] => Table2.findEssentialGo n (idx + 1) (t.selectRow i) (ess ++ [i])
          | _ => Table2.findEssentialGo n (idx + 1) t ess :=
  rfl

theorem petrickGo_succ (fuel : Nat) (t : Table2) (sel : List Nat) :
    Table2.petrickGo (fuel + 1) t sel =
      if t.isFullyCovered then (t, sel)
      else
        match t.candidateIdxs t.getUncoveredMinterms with
        | [] => (t, sel)
        | c :: cs =>
          Table2.petrickGo fuel (t.selectRow (t.pickBestFrom t.getUncoveredMinterms c cs))
            (sel ++ [t.pickBestFrom t.getUncoveredMinterms c cs]) :=
  rfl

/-- Any property preserved by arbitrary row selection survives the
essential-implicant pass. -/
theorem findEssentialGo_preserves (P : Table2 → Prop)
    (hP : ∀ (t : Table2) (i : Nat), P t → P (t.selectRow i)) :
    ∀ (n idx : Nat) (t : Table2) (ess : List Nat), P t →
      P (Table2.findEssentialGo n idx t ess).1 := by
  intro n
  induction n with
  | zero => intro idx t ess h; exact h
  | succ n ih =>
    intro idx t ess h
    rw [findEssentialGo_succ]
    cases hcol : t.columns[idx]? with
    | none => exact h
    | some column =>
      simp only
      by_cases hcov : column.isCovered
      · rw [if_pos hcov]; exact ih (idx + 1) t ess h
      · rw [if_neg hcov]
        cases hcr : t.coveringRowIdxs column.minterm with
        | nil => exact ih (idx + 1) t ess h
        | cons i rest =>
          cases rest with
          | nil => exact ih (idx + 1) (t.selectRow i) (ess ++ [i]) (hP t i h)
          | cons j rest2 => exact ih (idx + 1) t ess h

/-- Any property preserved by arbitrary row selection survives the
greedy residual pass. -/
theorem petrickGo_preserves (P : Table2 → Prop)
    (hP : ∀ (t : Table2) (i : Nat), P t → P (t.selectRow i)) :
    ∀ (fuel : Nat) (t : Table2) (sel : List Nat), P t →
      P (Table2.petrickGo fuel t sel).1 := by
  intro fuel
  induction fuel with
  | zero => intro t sel h; exact h
  | succ fuel ih =>
    intro t sel h
    rw [petrickGo_succ]
    by_cases hful : t.isFullyCovered
    · rw [if_pos hful]; exact h
    · rw [if_neg hful]
      cases hcand : t.candidateIdxs t.getUncoveredMinterms with
      | nil => exact h
      | cons c cs => exact ih _ _ (hP t _ h)

/-! ## The greedy residual pass reaches full coverage (claims C1, C4) -/

/-- Number of not-yet-selected rows. -/
def unselCount (t : Table2) : Nat :=
  (t.rows.filter (fun r => !r.isSelected)).length

theorem modifyAt_filter_unsel_lt (l : List Table2Row) :
    ∀ (i : Nat) (row : Table2Row), l[i]? = some row → row.isSelected = false →
    ((modifyAt l i (fun r => { r with isSelected := true })).filter
      (fun r => !r.isSelected)).length < (l.filter (fun r => !r.isSelected)).length := by
  induction l with
  | nil => intro i row h; exact absurd h (by simp)
  | cons x xs ih =>
    intro i row h hsel
    cases i with
    | zero =>
      have hx : x = row := by simpa using h
      subst hx
      show ((({ x with isSelected := true }) :: xs).filter (fun r => !r.isSelected)).length <
        ((x :: xs).filter (fun r => !r.isSelected)).length
      rw [List.filter_cons, List.filter_cons]
      have h1 : (!({ x with isSelected := true } : Table2Row).isSelected) = false := by simp
      have h2 : (!x.isSelected) = true := by simp [hsel]
      rw [h1, h2]
      simp
    | succ n =>
      have h2 : xs[n]? = some row := by simpa using h
      show ((x :: modifyAt xs n (fun r => { r with isSelected := true })).filter
          (fun r => !r.isSelected)).length <
        ((x :: xs).filter (fun r => !r.isSelected)).length
      rw [List.filter_cons, List.filter_cons]
      by_cases hx : (!x.isSelected) = true
      · rw [hx]
        simpa using ih n row h2 hsel
      · rw [Bool.not_eq_true] at hx
        rw [hx]
        simpa using ih n row h2 hsel

theorem unselCount_selectRow_lt (t : Table2) (i : Nat) (row : Table2Row)
    (hrow : t.rows[i]? = some row) (hsel : row.isSelected = false) :
    unselCount (t.selectRow i) < unselCount t := by
  unfold unselCount
  have hrows : (t.selectRow i).rows = modifyAt t.rows i
      (fun r => { r with isSelected := true }) := by
    unfold Table2.selectRow
    rw [hrow]
    simp only
    rw [markCovered_rows]
  rw [hrows]
  exact modifyAt_filter_unsel_lt t.rows i row hrow hsel

theorem candidateIdxs_elim (t : Table2) (cu : List Int) (i : Nat)
    (h : i ∈ t.candidateIdxs cu) :
    ∃ row, t.rows[i]? = some row ∧ row.isSelected = false ∧ 0 < row.countCoverage cu := by
  unfold Table2.candidateIdxs at h
  obtain ⟨hrange, hpred⟩ := List.mem_filter.1 h
  cases hrow : t.rows[i]? with
  | none => rw [hrow] at hpred; exact absurd hpred (by simp)
  | some row =>
    rw [hrow] at hpred
    simp only [Bool.and_eq_true, Bool.not_eq_true', decide_eq_true_eq] at hpred
    exact ⟨row, rfl, hpred.1, hpred.2⟩

theorem candidateIdxs_intro (t : Table2) (cu : List Int) (i : Nat) (row : Table2Row)
    (hrow : t.rows[i]? = some row) (hsel : row.isSelected = false)
    (hcount : 0 < row.countCoverage cu) : i ∈ t.candidateIdxs cu := by
  unfold Table2.candidateIdxs
  have hlt : i < t.rows.length := by
    by_contra hcon
    rw [List.getElem?_eq_none (by omega)] at hrow
    exact Option.noConfusion hrow
  refine List.mem_filter.2 ⟨List.mem_range.2 hlt, ?_⟩
  rw [hrow]
  simp [hsel, hcount]

theorem pickBestFrom_mem (t : Table2) (cu : List Int) :
    ∀ (rest : List Nat) (first : Nat), t.pickBestFrom cu first rest ∈ first :: rest := by
  intro rest
  induction rest with
  | nil => intro first; exact List.mem_cons_self _ _
  | cons j rest ih =>
    intro first
    have hstep : t.pickBestFrom cu first (j :: rest) =
        t.pickBestFrom cu (if t.coverageAt cu first < t.coverageAt cu j then j
          else if t.coverageAt cu j = t.coverageAt cu first ∧ t.literalsAt j < t.literalsAt first
          then j else first) rest := rfl
    rw [hstep]
    have hmem := ih (if t.coverageAt cu first < t.coverageAt cu j then j
      else if t.coverageAt cu j = t.coverageAt cu first ∧ t.literalsAt j < t.literalsAt first
      then j else first)
    rcases List.mem_cons.1 hmem with h1 | h1
    · rw [h1]
      by_cases hc1 : t.coverageAt cu first < t.coverageAt cu j
      · rw [if_pos hc1]; simp
      · rw [if_neg hc1]
        by_cases hc2 : t.coverageAt cu j = t.coverageAt cu first ∧
            t.literalsAt j < t.literalsAt first
        · rw [if_pos hc2]; simp
        · rw [if_neg hc2]; simp
    · exact List.mem_cons_of_mem _ (List.mem_cons_of_mem _ h1)

theorem candidate_exists_of_not_covered (ms : List Int) (t : Table2)
    (hinv : SelInvar ms t) (hnf : ¬ t.isFullyCovered = true) :
    ∃ i row, t.rows[i]? = some row ∧ row.isSelected = false ∧
      0 < row.countCoverage t.getUncoveredMinterms ∧
      i ∈ t.candidateIdxs t.getUncoveredMinterms := by
  obtain ⟨-, hinv2, hinv3⟩ := hinv
  have hne : t.uncoveredMinterms ≠ [] := by
    intro hcon
    exact hnf (by simp [Table2.isFullyCovered, hcon])
  obtain ⟨m, hm⟩ := List.exists_mem_of_ne_nil _ hne
  obtain ⟨row, hrowmem, hmr⟩ := hinv3 m hm
  have hsel : row.isSelected = false := by
    rw [← Bool.not_eq_true]
    intro hcon
    exact hinv2 row hrowmem hcon m hmr hm
  obtain ⟨i, hrow⟩ := List.getElem?_of_mem hrowmem
  have hcount : 0 < row.countCoverage t.getUncoveredMinterms := by
    unfold Table2Row.countCoverage
    have hm1 : m ∈ row.getCoveredMinterms := (mem_dedupFirst _ m).2 hmr
    have hm2 : decide (m ∈ t.getUncoveredMinterms) = true := by
      simpa [Table2.getUncoveredMinterms] using hm
    exact List.length_pos_of_mem (List.mem_filter.2 ⟨hm1, hm2⟩)
  exact ⟨i, row, hrow, hsel, hcount, candidateIdxs_intro t _ i row hrow hsel hcount⟩

theorem petrickGo_covers (ms : List Int) :
    ∀ (fuel : Nat) (t : Table2) (sel : List Nat), SelInvar ms t → unselCount t ≤ fuel →
    (Table2.petrickGo fuel t sel).1.isFullyCovered = true := by
  intro fuel
  induction fuel with
  | zero =>
    intro t sel hinv hfuel
    by_contra hnf
    obtain ⟨i, row, hrow, hsel, -, -⟩ := candidate_exists_of_not_covered ms t hinv hnf
    have : 0 < unselCount t := by
      unfold unselCount
      apply List.length_pos_of_mem
      exact List.mem_filter.2 ⟨List.getElem?_mem hrow, by simp [hsel]⟩
    omega
  | succ fuel ih =>
    intro t sel hinv hfuel
    rw [petrickGo_succ]
    by_cases hful : t.isFullyCovered
    · rw [if_pos hful]; exact hful
    · rw [if_neg hful]
      cases hcand : t.candidateIdxs t.getUncoveredMinterms with
      | nil =>
        obtain ⟨i, row, -, -, -, hmem⟩ := candidate_exists_of_not_covered ms t hinv hful
        rw [hcand] at hmem
        exact absurd hmem (by simp)
      | cons c cs =>
        have hbest : t.pickBestFrom t.getUncoveredMinterms c cs ∈
            t.candidateIdxs t.getUncoveredMinterms := by
          rw [hcand]
          exact pickBestFrom_mem t _ cs c
        obtain ⟨row, hrow, hsel, -⟩ := candidateIdxs_elim t _ _ hbest
        have hlt := unselCount_selectRow_lt t _ row hrow hsel
        exact ih _ _ (selInvar_selectRow ms t _ hinv) (by omega)

theorem mkTable2_rowsRecords (pis : List Table1Record) (ms : List Int) :
    (mkTable2 pis ms).rows.map (fun r => r.record) = pis := by
  unfold mkTable2
  simp only [List.map_map]
  have hcomp : ((fun r : Table2Row => r.record) ∘
      fun record => ({ record := record, isSelected := false } : Table2Row)) =
      fun record => record := rfl
  rw [hcomp]
  simp

theorem selInvar_mk (pis : List Table1Record) (ms : List Int)
    (hcov : ∀ m ∈ ms, ∃ q ∈ pis, m ∈ q.minterms) : SelInvar ms (mkTable2 pis ms) := by
  refine ⟨?_, ?_, ?_⟩
  · intro m hm
    exact Or.inl (by simpa [mkTable2, mem_dedupFirst] using hm)
  · intro row hrow hsel
    unfold mkTable2 at hrow
    simp only [List.mem_map] at hrow
    obtain ⟨q, -, hq⟩ := hrow
    rw [← hq] at hsel
    exact absurd hsel (by simp)
  · intro m hm
    have hm2 : m ∈ ms := by simpa [mkTable2, mem_dedupFirst] using hm
    obtain ⟨q, hq, hmq⟩ := hcov m hm2
    refine ⟨{ record := q, isSelected := false }, ?_, hmq⟩
    unfold mkTable2
    simp only [List.mem_map]
    exact ⟨q, hq, rfl⟩

theorem applyPetricks_preserves (P : Table2 → Prop)
    (hP : ∀ (t : Table2) (i : Nat), P t → P (t.selectRow i)) (t : Table2) (h : P t) :
    P (t.applyPetricksMethod).1 := by
  unfold Table2.applyPetricksMethod
  by_cases h1 : (t.getUncoveredMinterms.isEmpty = true) ∨ (t.getUnselectedRows.isEmpty = true)
  · rw [if_pos h1]; exact h
  · rw [if_neg h1]
    by_cases h2 : ((t.getUnselectedRows.filter
        (fun row => decide (0 < row.countCoverage t.getUncoveredMinterms))).isEmpty = true)
    · rw [if_pos h2]; exact h
    · rw [if_neg h2]
      exact petrickGo_preserves P hP _ _ _ h

theorem selectFull_preserves (P : Table2 → Prop)
    (hP : ∀ (t : Table2) (i : Nat), P t → P (t.selectRow i))
    (pis : List Table1Record) (ms : List Int) (h : P (mkTable2 pis ms)) :
    P (QuineMcCluskeySolver.selectPrimeImplicantsFull pis ms).1 := by
  unfold QuineMcCluskeySolver.selectPrimeImplicantsFull
  have hess : P ((mkTable2 pis ms).findEssentialPrimeImplicants).1 :=
    findEssentialGo_preserves P hP _ _ _ _ h
  by_cases hful : ((mkTable2 pis ms).findEssentialPrimeImplicants).1.isFullyCovered = true
  · rw [if_pos hful]; exact hess
  · rw [if_neg hful]
    exact applyPetricks_preserves P hP _ hess

theorem selectFull_invar (pis : List Table1Record) (ms : List Int)
    (hcov : ∀ m ∈ ms, ∃ q ∈ pis, m ∈ q.minterms) :
    SelInvar ms (QuineMcCluskeySolver.selectPrimeImplicantsFull pis ms).1 :=
  selectFull_preserves (SelInvar ms) (fun t i h => selInvar_selectRow ms t i h) pis ms
    (selInvar_mk pis ms hcov)

theorem selectFull_records (pis : List Table1Record) (ms : List Int) :
    (QuineMcCluskeySolver.selectPrimeImplicantsFull pis ms).1.rows.map (fun r => r.record) =
      pis := by
  refine selectFull_preserves (fun t => t.rows.map (fun r => r.record) = pis) ?_ pis ms
    (mkTable2_rowsRecords pis ms)
  intro t i h
  rw [selectRow_rowsRecords]
  exact h

theorem selectFull_table_covers (pis : List Table1Record) (ms : List Int)
    (hcov : ∀ m ∈ ms, ∃ q ∈ pis, m ∈ q.minterms) :
    (QuineMcCluskeySolver.selectPrimeImplicantsFull pis ms).1.isFullyCovered = true := by
  unfold QuineMcCluskeySolver.selectPrimeImplicantsFull
  have hinv : SelInvar ms ((mkTable2 pis ms).findEssentialPrimeImplicants).1 :=
    findEssentialGo_preserves (SelInvar ms) (fun t i h => selInvar_selectRow ms t i h) _ _ _ _
      (selInvar_mk pis ms hcov)
  by_cases hful : ((mkTable2 pis ms).findEssentialPrimeImplicants).1.isFullyCovered = true
  · rw [if_pos hful]; exact hful
  · rw [if_neg hful]
    show ((((mkTable2 pis ms).findEssentialPrimeImplicants).1.applyPetricksMethod).1
        ).isFullyCovered = true
    obtain ⟨i, row, hrow, hsel, hcount, -⟩ :=
      candidate_exists_of_not_covered ms _ hinv hful
    unfold Table2.applyPetricksMethod
    have h1 : ¬ ((((mkTable2 pis ms).findEssentialPrimeImplicants).1.getUncoveredMinterms.isEmpty
        = true) ∨
        (((mkTable2 pis ms).findEssentialPrimeImplicants).1.getUnselectedRows.isEmpty = true)) := by
      rintro (ha | hb)
      · exact hful ha
      · have hmem : row ∈
            ((mkTable2 pis ms).findEssentialPrimeImplicants).1.getUnselectedRows := by
          unfold Table2.getUnselectedRows
          exact List.mem_filter.2 ⟨List.getElem?_mem hrow, by simp [hsel]⟩
        rw [List.isEmpty_iff] at hb
        rw [hb] at hmem
        exact absurd hmem (by simp)
    rw [if_neg h1]
    have h2 : ¬ ((((mkTable2 pis ms).findEssentialPrimeImplicants).1.getUnselectedRows.filter
        (fun row => decide (0 < row.countCoverage
          ((mkTable2 pis ms).findEssentialPrimeImplicants).1.getUncoveredMinterms))).isEmpty
        = true) := by
      intro hcon
      have hmem : row ∈
          ((mkTable2 pis ms).findEssentialPrimeImplicants).1.getUnselectedRows.filter
            (fun row => decide (0 < row.countCoverage
              ((mkTable2 pis ms).findEssentialPrimeImplicants).1.getUncoveredMinterms)) := by
        refine List.mem_filter.2 ⟨?_, by simp [hcount]⟩
        unfold Table2.getUnselectedRows
        exact List.mem_filter.2 ⟨List.getElem?_mem hrow, by simp [hsel]⟩
      rw [List.isEmpty_iff] at hcon
      rw [hcon] at hmem
      exact absurd hmem (by simp)
    rw [if_neg h2]
    refine petrickGo_covers ms _ _ [] hinv ?_
    unfold unselCount
    exact List.length_filter_le _ _

theorem selection_covers (pis : List Table1Record) (ms : List Int)
    (hcov : ∀ m ∈ ms, ∃ q ∈ pis, m ∈ q.minterms) :
    ∀ m ∈ ms, ∃ r ∈ QuineMcCluskeySolver.selectPrimeImplicants pis ms, m ∈ r.minterms := by
  intro m hm
  have hful := selectFull_table_covers pis ms hcov
  have hinv := selectFull_invar pis ms hcov
  rcases hinv.1 m hm with hu | ⟨row, hrow, hsel, hmr⟩
  · exfalso
    have : (QuineMcCluskeySolver.selectPrimeImplicantsFull pis ms).1.uncoveredMinterms = [] := by
      simpa [Table2.isFullyCovered, List.isEmpty_iff] using hful
    rw [this] at hu
    exact absurd hu (by simp)
  · refine ⟨row.record, ?_, hmr⟩
    unfold QuineMcCluskeySolver.selectPrimeImplicants Table2.getSelectedRows
    simp only [List.mem_map]
    exact ⟨row, List.mem_filter.2 ⟨hrow, hsel⟩, rfl⟩

theorem selection_sublist (pis : List Table1Record) (ms : List Int) :
    List.Sublist (QuineMcCluskeySolver.selectPrimeImplicants pis ms) pis := by
  have h := List.Sublist.map (fun r : Table2Row => r.record)
    (List.filter_sublist (p := fun r => r.isSelected)
      ((QuineMcCluskeySolver.selectPrimeImplicantsFull pis ms).1.rows))
  rw [selectFull_records pis ms] at h
  exact h

theorem selection_subset (pis : List Table1Record) (ms : List Int) :
    ∀ r ∈ QuineMcCluskeySolver.selectPrimeImplicants pis ms, r ∈ pis :=
  fun r hr => (selection_sublist pis ms).mem hr

/-- Under `solve`'s happy path (nonempty minterms, no out-of-range term),
the result is exactly the selected implicants rendered as loops. -/
theorem solve_ok_eq (minterms dontcares : List Int) (v : Nat)
    (hne : ¬ minterms = [])
    (hrange : ∀ t ∈ minterms ++ dontcares, t ≤ 2 ^ v - 1) :
    QuineMcCluskeySolver.solve minterms dontcares v =
      Except.ok ((QuineMcCluskeySolver.selectPrimeImplicants
        (QuineMcCluskeySolver.findPrimeImplicants minterms dontcares v) minterms).map
          (fun record => RequiredLoop.create record.minterms record.bits)) := by
  unfold QuineMcCluskeySolver.solve
  rw [if_neg (by simpa [List.isEmpty_iff] using hne)]
  have hfind : (minterms ++ dontcares).find?
      (fun term => decide ((2 : Int) ^ v - 1 < term)) = none := by
    rw [List.find?_eq_none]
    intro x hx
    simp only [decide_eq_true_eq]
    push_neg
    exact hrange x hx
  have hpisne : ¬ (QuineMcCluskeySolver.findPrimeImplicants minterms dontcares v).isEmpty
      = true := by
    obtain ⟨m, hm⟩ := List.exists_mem_of_ne_nil _ hne
    obtain ⟨q, hq, -⟩ := findPrimeImplicants_covers minterms dontcares v m
      (List.mem_append.2 (Or.inl hm))
    rw [List.isEmpty_iff]
    intro hcon
    rw [hcon] at hq
    exact absurd hq (by simp)
  simp [hfind, hpisne]

/-! ## Claim C4: every requested minterm is covered by the result -/

/-- Claim C4: for every call with nonempty, duplicate-free, in-range
minterms, solve succeeds and every requested minterm appears in the
minterms of at least one returned Loop; in particular the residual
heuristic's no-candidate break is unreachable through the public
contract, because every minterm lies inside some prime implicant. -/
theorem solve_every_minterm_covered (minterms dontcares : List Int) (v : Nat)
    (hne : ¬ minterms = []) (hnd : minterms.Nodup)
    (hrange : ∀ t ∈ minterms ++ dontcares, 0 ≤ t ∧ t ≤ 2 ^ v - 1) :
    ∃ loops, QuineMcCluskeySolver.solve minterms dontcares v = Except.ok loops ∧
      ∀ m ∈ minterms, ∃ loop ∈ loops, m ∈ loop.minterms := by
  refine ⟨_, solve_ok_eq minterms dontcares v hne (fun t ht => (hrange t ht).2), ?_⟩
  intro m hm
  have hcov : ∀ m2 ∈ minterms,
      ∃ q ∈ QuineMcCluskeySolver.findPrimeImplicants minterms dontcares v, m2 ∈ q.minterms :=
    fun m2 hm2 => findPrimeImplicants_covers minterms dontcares v m2
      (List.mem_append.2 (Or.inl hm2))
  obtain ⟨r, hr, hmr⟩ := selection_covers _ minterms hcov m hm
  refine ⟨RequiredLoop.create r.minterms r.bits, List.mem_map_of_mem _ hr, ?_⟩
  unfold RequiredLoop.create
  simpa [sortInt_mem] using hmr

/-- Witness for C4 at `solve [3,0] [1] 2`. -/
theorem solve_every_minterm_covered_witness :
    ∃ loops, QuineMcCluskeySolver.solve [3, 0] [1] 2 = Except.ok loops ∧
      ∀ m ∈ ([3, 0] : List Int), ∃ loop ∈ loops, m ∈ loop.minterms :=
  solve_every_minterm_covered [3, 0] [1] 2 (by decide) (by decide) (by decide)

/-! ## Claim C1: the union of returned minterms versus the request -/

/-- Claim C1 counterexample: for `solve [1] [3] 2` (nonempty in-range
minterms, residual heuristic never exhausted) the single returned loop
carries minterm set {1, 3}: the dontcare 3 is an extra index, so the
union of the returned Loops' minterms does not equal the requested set
{1}. -/
theorem solve_union_equal_cex :
    QuineMcCluskeySolver.solve [1] [3] 2 =
      Except.ok [⟨[1, 3], [ELogicState.DontCare, ELogicState.True]⟩] ∧
      (3 : Int) ∉ ([1] : List Int) := by
  constructor
  · rfl
  · decide

/-- Claim C1 (amended): for nonempty in-range minterms the union of the
returned Loops' minterms contains every requested minterm, and every
index it contains is a requested term — a minterm or a dontcare.  (The
requested-set equality fails only by dontcare indices folded into
loops; the heuristic never exhausts candidates, so no requested minterm
is ever missing.) -/
theorem solve_union_contains (minterms dontcares : List Int) (v : Nat)
    (hne : ¬ minterms = [])
    (hrange : ∀ t ∈ minterms ++ dontcares, 0 ≤ t ∧ t ≤ 2 ^ v - 1) :
    ∃ loops, QuineMcCluskeySolver.solve minterms dontcares v = Except.ok loops ∧
      (∀ m ∈ minterms, ∃ loop ∈ loops, m ∈ loop.minterms) ∧
      (∀ loop ∈ loops, ∀ m ∈ loop.minterms, m ∈ minterms ++ dontcares) := by
  refine ⟨_, solve_ok_eq minterms dontcares v hne (fun t ht => (hrange t ht).2), ?_, ?_⟩
  · intro m hm
    have hcov : ∀ m2 ∈ minterms,
        ∃ q ∈ QuineMcCluskeySolver.findPrimeImplicants minterms dontcares v,
          m2 ∈ q.minterms :=
      fun m2 hm2 => findPrimeImplicants_covers minterms dontcares v m2
        (List.mem_append.2 (Or.inl hm2))
    obtain ⟨r, hr, hmr⟩ := selection_covers _ minterms hcov m hm
    refine ⟨RequiredLoop.create r.minterms r.bits, List.mem_map_of_mem _ hr, ?_⟩
    unfold RequiredLoop.create
    simpa [sortInt_mem] using hmr
  · intro loop hloop m hm
    simp only [List.mem_map] at hloop
    obtain ⟨r, hr, hl⟩ := hloop
    have hrp : r ∈ QuineMcCluskeySolver.findPrimeImplicants minterms dontcares v :=
      selection_subset _ minterms r hr
    have hmr : m ∈ r.minterms := by
      rw [← hl] at hm
      unfold RequiredLoop.create at hm
      simpa [sortInt_mem] using hm
    exact findPrimeImplicants_bound minterms dontcares v r hrp m hmr

/-- Witness for C1's amended statement at `solve [1] [3] 2`. -/
theorem solve_union_contains_witness :
    ∃ loops, QuineMcCluskeySolver.solve [1] [3] 2 = Except.ok loops ∧
      (∀ m ∈ ([1] : List Int), ∃ loop ∈ loops, m ∈ loop.minterms) ∧
      (∀ loop ∈ loops, ∀ m ∈ loop.minterms, m ∈ ([1] : List Int) ++ [3]) :=
  solve_union_contains [1] [3] 2 (by decide) (by decide)

/-! ## Claim C2: validation of out-of-range terms -/

/-- Claim C2 counterexample: the negative term -1 lies outside
[0, 2^2 - 1], yet `solve [-1] [] 2` raises nothing and returns a loop:
the validation checks only the upper bound, so a negative term is not
rejected. -/
theorem solve_validation_cex :
    QuineMcCluskeySolver.solve [-1] [] 2 =
      Except.ok [⟨[-1], [ELogicState.True, ELogicState.True]⟩] ∧
      (-1 : Int) < 0 := by
  constructor
  · rfl
  · decide

/-- Claim C2 (amended): with the variable count supplied, solve raises a
validation failure if and only if the minterms are nonempty and some
term (minterm or dontcare) exceeds 2^v - 1; the failure is the single
descriptive message naming the first offending term and the computed
capacity, raised before any minimization work.  The lower bound is not
checked: negative terms are accepted. -/
theorem solve_validation (minterms dontcares : List Int) (v : Nat) :
    ((∃ msg, QuineMcCluskeySolver.solve minterms dontcares v = Except.error msg) ↔
      (¬ minterms = [] ∧ ∃ t ∈ minterms ++ dontcares, 2 ^ v - 1 < t)) ∧
    (∀ msg, QuineMcCluskeySolver.solve minterms dontcares v = Except.error msg →
      ∃ t, (minterms ++ dontcares).find? (fun x => decide ((2 : Int) ^ v - 1 < x)) = some t ∧
        msg = QuineMcCluskeySolver.validationMessage t (2 ^ v - 1) v) := by
  unfold QuineMcCluskeySolver.solve
  by_cases h1 : minterms.isEmpty = true
  · rw [if_pos h1]
    constructor
    · constructor
      · rintro ⟨msg, hmsg⟩
        exact absurd hmsg (by simp)
      · rintro ⟨hne, -⟩
        exact absurd (List.isEmpty_iff.1 h1) hne
    · intro msg hmsg
      exact absurd hmsg (by simp)
  · rw [if_neg h1]
    cases hfind : (minterms ++ dontcares).find?
        (fun term => decide ((2 : Int) ^ v - 1 < term)) with
    | some t =>
      simp only [hfind]
      constructor
      · constructor
        · intro _
          refine ⟨by simpa [List.isEmpty_iff] using h1, t, ?_, ?_⟩
          · exact List.mem_of_find?_eq_some hfind
          · simpa using List.find?_some hfind
        · intro _
          exact ⟨_, rfl⟩
      · intro msg hmsg
        exact ⟨t, rfl, (Except.error.inj hmsg).symm⟩
    | none =>
      simp only [hfind]
      constructor
      · constructor
        · rintro ⟨msg, hmsg⟩
          by_cases h2 : (QuineMcCluskeySolver.findPrimeImplicants minterms dontcares
              v).isEmpty = true
          · rw [if_pos h2] at hmsg
            exact absurd hmsg (by simp)
          · rw [if_neg h2] at hmsg
            exact absurd hmsg (by simp)
        · rintro ⟨-, t, ht, htb⟩
          have := List.find?_eq_none.1 hfind t ht
          simp only [decide_eq_true_eq] at this
          exact absurd htb this
      · intro msg hmsg
        by_cases h2 : (QuineMcCluskeySolver.findPrimeImplicants minterms dontcares
            v).isEmpty = true
        · rw [if_pos h2] at hmsg
          exact absurd hmsg (by simp)
        · rw [if_neg h2] at hmsg
          exact absurd hmsg (by simp)

/-- Witness for C2's amended statement: the out-of-range term 5 over two
variables makes solve raise. -/
theorem solve_validation_witness :
    ∃ msg, QuineMcCluskeySolver.solve [5] [] 2 = Except.error msg :=
  (solve_validation [5] [] 2).1.mpr ⟨by decide, 5, by decide, by decide⟩

/-! ## Claim C3: output order of the returned Loops -/

/-- The ordering claimed by the specification for the returned loops
(spec-side definition for claim C3): the records of the essential
selections in discovery order, followed by the records of the residual
selections in selection order. -/
def selectionOrderRecords (pis : List Table1Record) (ms : List Int) : List Table1Record :=
  ((QuineMcCluskeySolver.selectPrimeImplicantsFull pis ms).2.1 ++
    (QuineMcCluskeySolver.selectPrimeImplicantsFull pis ms).2.2).filterMap
    (fun i => ((QuineMcCluskeySolver.selectPrimeImplicantsFull pis ms).1.rows[i]?).map
      (fun row => row.record))

/-- Claim C3 counterexample: at `solve [3,0] [1] 2` the first essential
implicant discovered is the row with minterms {1,3} (column 3 is
processed first), the second is the row with minterms {0,1}, and no
residual selection happens; yet the returned Loops come out in row
order — {0,1} first — not in selection order. -/
theorem solve_order_cex :
    QuineMcCluskeySolver.solve [3, 0] [1] 2 =
      Except.ok [⟨[0, 1], [ELogicState.False, ELogicState.DontCare]⟩,
        ⟨[1, 3], [ELogicState.DontCare, ELogicState.True]⟩] ∧
      (selectionOrderRecords
          (QuineMcCluskeySolver.findPrimeImplicants [3, 0] [1] 2) [3, 0]).map
        (fun r => r.minterms) = [[1, 3], [0, 1]] ∧
      ¬ ([[0, 1], [1, 3]] : List (List Int)) = [[1, 3], [0, 1]] := by
  refine ⟨?_, ?_, by decide⟩
  · rfl
  · rfl

/-- Claim C3 (amended): the returned Loops are the selected implicants
in the order their prime implicants were generated (`getSelectedRows`
filters the row array), i.e. a subsequence of the prime-implicant list —
not in selection order. -/
theorem solve_loops_in_row_order (minterms dontcares : List Int) (v : Nat)
    (loops : List RequiredLoop)
    (h : QuineMcCluskeySolver.solve minterms dontcares v = Except.ok loops) :
    ∃ recs,
      List.Sublist recs (QuineMcCluskeySolver.findPrimeImplicants minterms dontcares v) ∧
      loops = recs.map (fun r => RequiredLoop.create r.minterms r.bits) := by
  unfold QuineMcCluskeySolver.solve at h
  by_cases h1 : minterms.isEmpty = true
  · rw [if_pos h1] at h
    have hl : loops = [] := (Except.ok.inj h).symm
    exact ⟨[], List.nil_sublist _, by rw [hl]; rfl⟩
  · rw [if_neg h1] at h
    cases hfind : (minterms ++ dontcares).find?
        (fun term => decide ((2 : Int) ^ v - 1 < term)) with
    | some t =>
      simp only [hfind] at h
      exact absurd h (by simp)
    | none =>
      simp only [hfind] at h
      by_cases h2 : (QuineMcCluskeySolver.findPrimeImplicants minterms dontcares
          v).isEmpty = true
      · rw [if_pos h2] at h
        have hl : loops = [] := (Except.ok.inj h).symm
        exact ⟨[], List.nil_sublist _, by rw [hl]; rfl⟩
      · rw [if_neg h2] at h
        refine ⟨QuineMcCluskeySolver.selectPrimeImplicants
          (QuineMcCluskeySolver.findPrimeImplicants minterms dontcares v) minterms,
          selection_sublist _ _, ?_⟩
        exact (Except.ok.inj h).symm

/-- Witness for C3's amended statement at `solve [3,0] [1] 2`. -/
theorem solve_loops_in_row_order_witness :
    ∃ recs,
      List.Sublist recs (QuineMcCluskeySolver.findPrimeImplicants [3, 0] [1] 2) ∧
      [(⟨[0, 1], [ELogicState.False, ELogicState.DontCare]⟩ : RequiredLoop),
        ⟨[1, 3], [ELogicState.DontCare, ELogicState.True]⟩] =
        recs.map (fun r => RequiredLoop.create r.minterms r.bits) :=
  solve_loops_in_row_order [3, 0] [1] 2 _ (by rfl)

/-! ## Claim C6 machinery: the essential pass reaches the fixed point -/

/-- A row index is a unique coverer: some uncovered column is covered by
exactly this row among the unselected rows (claim C6's selection
condition, read off `findEssentialPrimeImplicants`). -/
def Table2.uniqueCoverer (t : Table2) (i : Nat) : Prop :=
  ∃ c ∈ t.columns, c.isCovered = false ∧ t.coveringRowIdxs c.minterm = [i]

/-- A chain of essential selections: each selected index is a unique
coverer of some uncovered column at the moment of its selection. -/
inductive EssChain : Table2 → List Nat → Table2 → Prop
  | nil (t : Table2) : EssChain t [] t
  | cons (t : Table2) (i : Nat) (es : List Nat) (u : Table2) :
      t.uniqueCoverer i → EssChain (t.selectRow i) es u → EssChain t (i :: es) u

theorem getElem?_some_lt {α : Type} (l : List α) (k : Nat) (a : α)
    (h : l[k]? = some a) : k < l.length := by
  by_contra hk
  rw [List.getElem?_eq_none (Nat.le_of_not_lt hk)] at h
  exact absurd h (by simp)

theorem getElem?_none_le {α : Type} (l : List α) (k : Nat)
    (h : l[k]? = none) : l.length ≤ k := by
  by_contra hk
  rw [List.getElem?_eq_getElem (Nat.lt_of_not_le hk)] at h
  exact absurd h (by simp)

/-- Under duplicate-free column minterms, `setFirstCovered` marks exactly
the column carrying the minterm. -/
theorem setFirstCovered_nodup_getElem? (cols : List Table2Column) (m : Int)
    (hnd : (cols.map (fun c => c.minterm)).Nodup) (k : Nat) :
    (setFirstCovered cols m)[k]? = (cols[k]?).map
      (fun c => if c.minterm = m then { c with isCovered := true } else c) := by
  induction cols generalizing k with
  | nil => simp [setFirstCovered]
  | cons c cs ih =>
    rw [List.map_cons, List.nodup_cons] at hnd
    unfold setFirstCovered
    by_cases hc : c.minterm = m
    · rw [if_pos hc]
      cases k with
      | zero => simp [hc]
      | succ j =>
        simp only [List.getElem?_cons_succ]
        cases hcs : cs[j]? with
        | none => rfl
        | some c2 =>
          have hm : ¬ c2.minterm = m := by
            intro he
            refine hnd.1 ?_
            rw [hc, ← he]
            exact List.mem_map_of_mem _ (List.getElem?_mem hcs)
          simp [hm]
    · rw [if_neg hc]
      cases k with
      | zero => simp [hc]
      | succ j =>
        simp only [List.getElem?_cons_succ]
        exact ih hnd.2 j

/-- The Table2 fold inside `markCovered` acts on the column list as a
plain fold of `setFirstCovered`. -/
theorem foldl_columns_split (L : List Int) : ∀ (u : Table2),
    (L.foldl (fun acc m =>
      { acc with
        columns := setFirstCovered acc.columns m
        uncoveredMinterms := acc.uncoveredMinterms.filter (fun x => decide (¬ x = m)) })
      u).columns = L.foldl (fun cols m => setFirstCovered cols m) u.columns := by
  induction L with
  | nil => intro u; rfl
  | cons m L ih =>
    intro u
    rw [List.foldl_cons, List.foldl_cons, ih]

theorem markCovered_columns (t : Table2) (row : Table2Row) :
    (t.markCovered row).columns =
      row.getCoveredMinterms.foldl (fun cols m => setFirstCovered cols m) t.columns := by
  unfold Table2.markCovered
  exact foldl_columns_split _ t

theorem foldl_setFirstCovered_getElem? (L : List Int) : ∀ (cols : List Table2Column),
    (cols.map (fun c => c.minterm)).Nodup → ∀ (k : Nat),
    (L.foldl (fun cols2 m => setFirstCovered cols2 m) cols)[k]? = (cols[k]?).map
      (fun c => if decide (c.minterm ∈ L) = true then { c with isCovered := true } else c) := by
  induction L with
  | nil =>
    intro cols h k
    cases ht : cols[k]? <;> simp [ht]
  | cons m L ih =>
    intro cols h k
    rw [List.foldl_cons]
    have h3 : ((setFirstCovered cols m).map (fun c => c.minterm)).Nodup := by
      rw [setFirstCovered_minterm_map]
      exact h
    rw [ih (setFirstCovered cols m) h3 k]
    rw [setFirstCovered_nodup_getElem? cols m h k]
    cases ht : cols[k]? with
    | none => rfl
    | some c =>
      by_cases hm : c.minterm = m
      · simp [hm]
      · by_cases hL : c.minterm ∈ L
        · simp [hm, hL]
        · simp [hm, hL]

/-- Under duplicate-free column minterms, selecting row `i` marks as
covered exactly the columns whose minterm the row covers. -/
theorem selectRow_columns_getElem? (t : Table2) (i : Nat) (row : Table2Row)
    (hrow : t.rows[i]? = some row)
    (hnd : (t.columns.map (fun c => c.minterm)).Nodup) (k : Nat) :
    (t.selectRow i).columns[k]? = (t.columns[k]?).map
      (fun c => if decide (c.minterm ∈ row.getCoveredMinterms) = true
        then { c with isCovered := true } else c) := by
  unfold Table2.selectRow
  rw [hrow]
  simp only
  rw [markCovered_columns]
  exact foldl_setFirstCovered_getElem? _ t.columns hnd k

theorem selectRow_rows_getElem? (t : Table2) (i j : Nat) :
    (t.selectRow i).rows[j]? =
      if j = i then (t.rows[j]?).map (fun r => { r with isSelected := true })
      else t.rows[j]? := by
  unfold Table2.selectRow
  cases hrow : t.rows[i]? with
  | none =>
    by_cases hj : j = i
    · subst hj
      rw [if_pos rfl, hrow]
      rfl
    · rw [if_neg hj]
  | some row =>
    simp only
    rw [markCovered_rows, modifyAt_getElem?]

theorem selectRow_rows_length (t : Table2) (i : Nat) :
    (t.selectRow i).rows.length = t.rows.length := by
  have h := congrArg List.length (selectRow_rowsRecords t i)
  simpa using h

theorem selectRow_columns_length (t : Table2) (i : Nat) :
    (t.selectRow i).columns.length = t.columns.length := by
  have h := congrArg List.length (selectRow_minterm_map t i)
  simpa using h

theorem coveringRowIdxs_elim2 (t : Table2) (m : Int) (i : Nat)
    (h : i ∈ t.coveringRowIdxs m) :
    ∃ row, t.rows[i]? = some row ∧ row.isSelected = false ∧
      row.coversMinterm m = true := by
  unfold Table2.coveringRowIdxs at h
  obtain ⟨h1, h2⟩ := List.mem_filter.1 h
  cases hrow : t.rows[i]? with
  | none =>
    rw [hrow] at h2
    exact absurd h2 (by simp)
  | some row =>
    rw [hrow] at h2
    simp only [Bool.and_eq_true, Bool.not_eq_true'] at h2
    exact ⟨row, rfl, h2.1, h2.2⟩

theorem coversMinterm_getCovered (row : Table2Row) (m : Int) :
    row.coversMinterm m = decide (m ∈ row.getCoveredMinterms) := by
  unfold Table2Row.coversMinterm Table2Row.getCoveredMinterms
  by_cases h : m ∈ row.record.minterms
  · simp [h, mem_dedupFirst]
  · simp [h, mem_dedupFirst]

/-- Selecting a row that does not cover `m` leaves the coverer set of
`m` unchanged: the selected row was never in it, and no other row
changes. -/
theorem coveringRowIdxs_selectRow_stable (t : Table2) (i : Nat) (m : Int)
    (row : Table2Row) (hrow : t.rows[i]? = some row)
    (hnc : row.coversMinterm m = false) :
    (t.selectRow i).coveringRowIdxs m = t.coveringRowIdxs m := by
  unfold Table2.coveringRowIdxs
  rw [selectRow_rows_length]
  apply List.filter_congr
  intro j hj
  rw [selectRow_rows_getElem?]
  by_cases hji : j = i
  · subst hji
    rw [if_pos rfl, hrow]
    simp only [Option.map_some]
    have hnc2 : ({ row with isSelected := true } : Table2Row).coversMinterm m = false := hnc
    simp [hnc, hnc2]
  · rw [if_neg hji]


/-- The essential pass, from any column index onwards: the selections
made form an `EssChain`, they are appended to the accumulator in
discovery order, and at the end no uncovered column anywhere in the
table has exactly one unselected coverer. -/
theorem findEssentialGo_spec : ∀ (n idx : Nat) (t : Table2) (ess : List Nat),
    (t.columns.map (fun c => c.minterm)).Nodup →
    t.columns.length ≤ idx + n →
    (∀ k, k < idx → ∀ c, t.columns[k]? = some c → c.isCovered = false →
      ¬ (t.coveringRowIdxs c.minterm).length = 1) →
    ∃ es, (Table2.findEssentialGo n idx t ess).2 = ess ++ es ∧
      EssChain t es (Table2.findEssentialGo n idx t ess).1 ∧
      ∀ (k : Nat) (c : Table2Column),
        (Table2.findEssentialGo n idx t ess).1.columns[k]? = some c →
        c.isCovered = false →
        ¬ ((Table2.findEssentialGo n idx t ess).1.coveringRowIdxs c.minterm).length = 1 := by
  intro n
  induction n with
  | zero =>
    intro idx t ess hnd hlen hP
    refine ⟨[], by simp [Table2.findEssentialGo], EssChain.nil t, ?_⟩
    intro k c hc hcov
    have hc2 : t.columns[k]? = some c := hc
    have hk : k < t.columns.length := getElem?_some_lt _ _ _ hc2
    exact hP k (by omega) c hc2 hcov
  | succ n ih =>
    intro idx t ess hnd hlen hP
    cases hcol : t.columns[idx]? with
    | none =>
      have hstep : Table2.findEssentialGo (n + 1) idx t ess = (t, ess) := by
        rw [findEssentialGo_succ]
        simp only [hcol]
      rw [hstep]
      have hle : t.columns.length ≤ idx := getElem?_none_le _ _ hcol
      refine ⟨[], by simp, EssChain.nil t, ?_⟩
      intro k c hc hcov
      have hc2 : t.columns[k]? = some c := hc
      have hk : k < t.columns.length := getElem?_some_lt _ _ _ hc2
      exact hP k (by omega) c hc2 hcov
    | some column =>
      by_cases hcv : column.isCovered = true
      · have hstep : Table2.findEssentialGo (n + 1) idx t ess =
            Table2.findEssentialGo n (idx + 1) t ess := by
          rw [findEssentialGo_succ]
          simp only [hcol]
          rw [if_pos hcv]
        rw [hstep]
        refine ih (idx + 1) t ess hnd (by omega) ?_
        intro k hk c hc hcov
        by_cases hki : k = idx
        · subst hki
          rw [hcol] at hc
          cases Option.some.inj hc
          rw [hcv] at hcov
          exact absurd hcov (by simp)
        · exact hP k (by omega) c hc hcov
      · have hcv2 : column.isCovered = false := by
          cases h2 : column.isCovered
          · rfl
          · exact absurd h2 hcv
        cases hcr : t.coveringRowIdxs column.minterm with
        | nil =>
          have hstep : Table2.findEssentialGo (n + 1) idx t ess =
              Table2.findEssentialGo n (idx + 1) t ess := by
            rw [findEssentialGo_succ]
            simp only [hcol]
            rw [if_neg hcv, hcr]
          rw [hstep]
          refine ih (idx + 1) t ess hnd (by omega) ?_
          intro k hk c hc hcov
          by_cases hki : k = idx
          · subst hki
            rw [hcol] at hc
            cases Option.some.inj hc
            rw [hcr]
            simp
          · exact hP k (by omega) c hc hcov
        | cons i rest =>
          cases rest with
          | cons j rest2 =>
            have hstep : Table2.findEssentialGo (n + 1) idx t ess =
                Table2.findEssentialGo n (idx + 1) t ess := by
              rw [findEssentialGo_succ]
              simp only [hcol]
              rw [if_neg hcv, hcr]
            rw [hstep]
            refine ih (idx + 1) t ess hnd (by omega) ?_
            intro k hk c hc hcov
            by_cases hki : k = idx
            · subst hki
              rw [hcol] at hc
              cases Option.some.inj hc
              rw [hcr]
              simp only [List.length_cons]
              omega
            · exact hP k (by omega) c hc hcov
          | nil =>
            have hstep : Table2.findEssentialGo (n + 1) idx t ess =
                Table2.findEssentialGo n (idx + 1) (t.selectRow i) (ess ++ [i]) := by
              rw [findEssentialGo_succ]
              simp only [hcol]
              rw [if_neg hcv, hcr]
            rw [hstep]
            have hi : i ∈ t.coveringRowIdxs column.minterm := by
              rw [hcr]
              simp
            obtain ⟨row, hrow, hsel, hcovm⟩ := coveringRowIdxs_elim2 t _ i hi
            have hnd2 : ((t.selectRow i).columns.map (fun c => c.minterm)).Nodup := by
              rw [selectRow_minterm_map]
              exact hnd
            have hlen2 : (t.selectRow i).columns.length = t.columns.length :=
              selectRow_columns_length t i
            have hP2 : ∀ k, k < idx + 1 → ∀ c, (t.selectRow i).columns[k]? = some c →
                c.isCovered = false →
                ¬ ((t.selectRow i).coveringRowIdxs c.minterm).length = 1 := by
              intro k hk c hc hcov
              rw [selectRow_columns_getElem? t i row hrow hnd k] at hc
              cases ht : t.columns[k]? with
              | none =>
                rw [ht] at hc
                exact absurd hc (by simp)
              | some c0 =>
                rw [ht] at hc
                have hc2 : (if decide (c0.minterm ∈ row.getCoveredMinterms) = true
                    then ({ c0 with isCovered := true } : Table2Column) else c0) = c :=
                  Option.some.inj hc
                by_cases hm : decide (c0.minterm ∈ row.getCoveredMinterms) = true
                · rw [if_pos hm] at hc2
                  rw [← hc2] at hcov
                  exact absurd hcov (by simp)
                · rw [if_neg hm] at hc2
                  cases hc2
                  have hnc : row.coversMinterm c.minterm = false := by
                    rw [coversMinterm_getCovered]
                    simpa using hm
                  rw [coveringRowIdxs_selectRow_stable t i c.minterm row hrow hnc]
                  by_cases hki : k = idx
                  · subst hki
                    rw [hcol] at ht
                    cases Option.some.inj ht
                    rw [coversMinterm_getCovered] at hcovm
                    exact absurd hcovm (by simpa using hm)
                  · exact hP k (by omega) c ht hcov
            obtain ⟨es, h1, h2, h3⟩ :=
              ih (idx + 1) (t.selectRow i) (ess ++ [i]) hnd2 (by omega) hP2
            refine ⟨i :: es, ?_, ?_, h3⟩
            · rw [h1]
              simp
            · exact EssChain.cons t i es _
                ⟨column, List.getElem?_mem hcol, hcv2, hcr⟩ h2

/-- Claim C6: during essential-implicant selection over a table built
from duplicate-free requested minterms, a row is selected only when it
is, at the moment of its selection, the unique unselected row covering
some uncovered column (the output indices form an `EssChain`); and when
the procedure returns, no remaining uncovered column has exactly one
unselected covering row — the single pass over the columns reaches the
same fixed point as the specification's repeat-until loop. -/
theorem essential_selection_fixed_point (pis : List Table1Record) (ms : List Int)
    (hnd : ms.Nodup) :
    EssChain (mkTable2 pis ms) ((mkTable2 pis ms).findEssentialPrimeImplicants).2
      ((mkTable2 pis ms).findEssentialPrimeImplicants).1 ∧
    ∀ (k : Nat) (c : Table2Column),
      ((mkTable2 pis ms).findEssentialPrimeImplicants).1.columns[k]? = some c →
      c.isCovered = false →
      ¬ (((mkTable2 pis ms).findEssentialPrimeImplicants).1.coveringRowIdxs
          c.minterm).length = 1 := by
  have hndc : ((mkTable2 pis ms).columns.map (fun c => c.minterm)).Nodup := by
    have he : (mkTable2 pis ms).columns.map (fun c => c.minterm) = ms := by
      unfold mkTable2
      simp only [List.map_map]
      have hid : ((fun c => c.minterm) ∘
          fun m => ({ minterm := m, isCovered := false } : Table2Column)) =
          fun m => m := rfl
      rw [hid]
      exact List.map_id ms
    rw [he]
    exact hnd
  obtain ⟨es, h1, h2, h3⟩ := findEssentialGo_spec (mkTable2 pis ms).columns.length 0
    (mkTable2 pis ms) [] hndc (by omega) (by intro k hk; exact absurd hk (by omega))
  unfold Table2.findEssentialPrimeImplicants
  refine ⟨?_, h3⟩
  have h1e : es = (Table2.findEssentialGo (mkTable2 pis ms).columns.length 0
      (mkTable2 pis ms) []).2 := by
    rw [h1]
    simp
  rw [← h1e]
  exact h2

/-- Witness for C6 over the prime implicants of minterms `[3,0]` with
dontcare `[1]` on two variables. -/
theorem essential_selection_fixed_point_witness :
    EssChain (mkTable2 (QuineMcCluskeySolver.findPrimeImplicants [3, 0] [1] 2) [3, 0])
      ((mkTable2 (QuineMcCluskeySolver.findPrimeImplicants [3, 0] [1] 2)
        [3, 0]).findEssentialPrimeImplicants).2
      ((mkTable2 (QuineMcCluskeySolver.findPrimeImplicants [3, 0] [1] 2)
        [3, 0]).findEssentialPrimeImplicants).1 ∧
    ∀ (k : Nat) (c : Table2Column),
      ((mkTable2 (QuineMcCluskeySolver.findPrimeImplicants [3, 0] [1] 2)
        [3, 0]).findEssentialPrimeImplicants).1.columns[k]? = some c →
      c.isCovered = false →
      ¬ (((mkTable2 (QuineMcCluskeySolver.findPrimeImplicants [3, 0] [1] 2)
        [3, 0]).findEssentialPrimeImplicants).1.coveringRowIdxs c.minterm).length = 1 :=
  essential_selection_fixed_point (QuineMcCluskeySolver.findPrimeImplicants [3, 0] [1] 2)
    [3, 0] (by decide)
